import Mathlib

/-!
Verification of the parlaylib core kernels (delayed sequences, blocked
reduce/scan, pack, split, three-way quicksort) against their
natural-language specification.  The C++ sources are shallowly embedded:
arrays are `List T` with a default-valued read `lget` and a bounds-checked
`lswap`, iterators are an array plus an offset, fallible code returns
`Option`/`Except`, and recursion whose termination depends on runtime
values is given explicit fuel.

The file is organised as definitions first (the embedding), then the
supporting lemmas and the claim theorems.
-/

namespace Parlay

variable {T : Type}

/-! ## Definitions -/

/-! ### List memory model -/

/-- Read of position `i`; out-of-range reads give `default`
(the C++ counterpart is undefined behaviour there). -/
def lget [Inhabited T] (l : List T) (i : Nat) : T := l.getD i default

/-- `std::swap(A[i], A[j])`.  In-range in all verified uses. -/
def lswap [Inhabited T] (l : List T) (i j : Nat) : List T :=
  (l.set i (lget l j)).set j (lget l i)

/-- The window `A[off .. off+n)` of the memory, as a list. -/
def seg (l : List T) (off n : Nat) : List T := (l.drop off).take n

/-! ### Delayed sequences (delayed_sequence.h)

A `delayed_sequence<T>` is the triple `(first, last, f)`; its iterator
stores a pointer to the parent and an absolute index. -/

structure DSeq (T : Type) where
  first : Nat
  last : Nat
  f : Nat → T

structure DSIter (T : Type) where
  parent : DSeq T
  index : Nat

/-- `delayed_sequence::operator[](i)`: returns `f(i)` (line 213). -/
def dsSubscript (s : DSeq T) (i : Nat) : T := s.f i

/-- `delayed_sequence::begin()`: an iterator at index `first` (line 198). -/
def dsBegin (s : DSeq T) : DSIter T := ⟨s, s.first⟩

/-- `iterator::operator[](i)`: returns `parent->f(index + i)` (line 164). -/
def iterSubscript (it : DSIter T) (i : Nat) : T := it.parent.f (it.index + i)

/-- `iterator::operator*()`: returns `parent->f(index)` (line 84). -/
def iterDeref (it : DSIter T) : T := it.parent.f it.index

/-- `iterator::operator+(delta)` (line 142). -/
def iterAdd (it : DSIter T) (delta : Nat) : DSIter T := ⟨it.parent, it.index + delta⟩

/-- Prefix `operator++` (line 77): mutates the iterator (and returns it);
modelled as the state after the call. -/
def iterPreInc (it : DSIter T) : DSIter T := ⟨it.parent, it.index + 1⟩

/-- Prefix `operator--` (line 103). -/
def iterPreDec (it : DSIter T) : DSIter T := ⟨it.parent, it.index - 1⟩

/-- Postfix `operator++(int)` (lines 88-91): a `const` member returning
`iterator(parent, index+1)`.  The model returns the pair
(returned iterator, state of the iterator after the call). -/
def iterPostInc (it : DSIter T) : DSIter T × DSIter T := (⟨it.parent, it.index + 1⟩, it)

/-- Postfix `operator--(int)` (lines 109-112), same shape. -/
def iterPostDec (it : DSIter T) : DSIter T × DSIter T := (⟨it.parent, it.index - 1⟩, it)

/-- Concrete delayed sequence used as the C6 counterexample: a constant
function with `first = 1`. -/
def dsConstOne : DSeq Nat := ⟨1, 3, fun _ => 0⟩

/-- Concrete iterator used as the C10 witness. -/
def dsIterTwo : DSIter Nat := ⟨⟨0, 5, fun i => i⟩, 2⟩

/-! ### base_case (quicksort.h lines 14-19)

`base_case(Iterator x, size_t n)` decides `large` from
`std::is_pointer<value_type>::value || (sizeof(x) > 8)`, where `x` is the
iterator object itself.  The type-level inputs are modelled as explicit
parameters. -/

/-- The code: `large = is_pointer<value_type> || sizeof(iterator) > 8`. -/
def base_case (valueIsPointer : Bool) (sizeofIterator : Nat) (n : Nat) : Bool :=
  let large := valueIsPointer || decide (sizeofIterator > 8)
  if large then decide (n < 16) else decide (n < 24)

/-- What the spec and claim say: `large` is decided by the *element* type,
`is_pointer<value_type> || sizeof(value_type) > 8`. -/
def base_case_claim (valueIsPointer : Bool) (sizeofValue : Nat) (n : Nat) : Bool :=
  let large := valueIsPointer || decide (sizeofValue > 8)
  if large then decide (n < 16) else decide (n < 24)

/-! ### Flags and monoids -/

/-- Modelled from the spec: the `flags` bitset is declared in utilities.h,
which is not among the sources; the spec recognizes exactly the bits
`fl_sequential`, `fl_conservative` and `fl_scan_inclusive` (unknown bits
are ignored), so flags are modelled as a record of those three bits. -/
structure Flags where
  sequential : Bool
  conservative : Bool
  scan_inclusive : Bool

def no_flag : Flags := ⟨false, false, false⟩

def fl_sequential : Flags := ⟨true, false, false⟩

def fl_conservative : Flags := ⟨false, true, false⟩

def fl_scan_inclusive : Flags := ⟨false, false, true⟩

/-- The monoid interface consumed by the kernels (monoid.h is external):
a binary operation `f` with an `identity` member. -/
structure Mon (T : Type) where
  f : T → T → T
  identity : T

/-- The monoid laws the library assumes but does not check. -/
structure IsMonoid (m : Mon T) : Prop where
  assoc : ∀ a b c, m.f (m.f a b) c = m.f a (m.f b c)
  id_left : ∀ a, m.f m.identity a = a
  id_right : ∀ a, m.f a m.identity = a

/-- `addm<size_t>()`. -/
def addm_nat : Mon Nat := ⟨fun a b => a + b, 0⟩

/-! ### sequence_ops.h -/

def _block_size : Nat := 2 ^ 10

/-- num_blocks (lines 49-54). -/
def num_blocks (n block_size : Nat) : Nat :=
  if n = 0 then 0 else 1 + (n - 1) / block_size

/-- `slice.cut(s, e)`. -/
def cut (A : List T) (s e : Nat) : List T := seg A s (e - s)

/-- reduce_serial (lines 67-73): reads `A[0]` unconditionally and folds
the remaining elements onto it; `none` models the out-of-range read on an
empty input. -/
def reduce_serial (A : List T) (m : Mon T) : Option T :=
  match A with
  | [] => none
  | x :: xs => some (xs.foldl m.f x)

/-- `(size_t)ceil(sqrt(n))` in exact integer arithmetic (the C++ computes
it on `double`s, where sqrt is correctly rounded and exact for the sizes
modelled here). -/
def natCeilSqrt (n : Nat) : Nat :=
  if Nat.sqrt n * Nat.sqrt n = n then Nat.sqrt n else Nat.sqrt n + 1

/-- The up-sweep `sliced_for` pass shared by reduce and scan_:
`Sums[i] = reduce_serial(make_slice(A).cut(s, e), m)` with
`s = i * bs`, `e = min(s + bs, n)`. -/
def block_sums (A : List T) (bs : Nat) (m : Mon T) : Option (List T) :=
  (List.range (num_blocks A.length bs)).mapM
    (fun i => reduce_serial (cut A (i * bs) (min (i * bs + bs) A.length)) m)

/-- reduce (lines 75-92); `fuel` bounds the recursion on the block sums
(`fuel = n + 1` always suffices, see the C2 theorem). -/
def reduce (fuel : Nat) (A : List T) (m : Mon T) (fl : Flags) : Option T :=
  match fuel with
  | 0 => none
  | fuel + 1 =>
    let n := A.length
    let block_size := max _block_size (4 * natCeilSqrt n)
    let l := num_blocks n block_size
    if l = 0 then some m.identity
    else if l = 1 ∨ fl.sequential = true then reduce_serial A m
    else do
      let Sums ← block_sums A block_size m
      reduce fuel Sums m no_flag

/-- scan_serial (lines 96-117): returns the written output together with
the final accumulator.  The loop reads `In[i]` before writing `Out[i]`,
so this pure rendering is faithful also for the aliased `scan_inplace`
use. -/
def scan_serial (In : List T) (m : Mon T) (offset : T) (inclusive : Bool) :
    List T × T :=
  match In with
  | [] => ([], offset)
  | x :: xs =>
    if inclusive then
      let r := m.f offset x
      let p := scan_serial xs m r inclusive
      (r :: p.1, p.2)
    else
      let p := scan_serial xs m (m.f offset x) inclusive
      (offset :: p.1, p.2)

/-- scan_ (lines 119-137).  The `none` case is the unreachable empty-block
read inside the up-sweep (C9); the combine pass runs with flags `0`,
hence exclusively. -/
def scan_ [Inhabited T] (In : List T) (m : Mon T) (fl : Flags) :
    Option (List T × T) :=
  let n := In.length
  let l := num_blocks n _block_size
  if l ≤ 2 ∨ fl.sequential = true then
    some (scan_serial In m m.identity fl.scan_inclusive)
  else do
    let Sums ← block_sums In _block_size m
    let p := scan_serial Sums m m.identity false
    let Out := ((List.range l).map (fun i =>
      (scan_serial (cut In (i * _block_size) (min (i * _block_size + _block_size) n))
        m (lget p.1 i) fl.scan_inclusive).1)).flatten
    some (Out, p.2)

/-- scan_inplace (lines 140-143). -/
def scan_inplace [Inhabited T] (In : List T) (m : Mon T) (fl : Flags) :
    Option (List T × T) :=
  scan_ In m fl

/-- scan (lines 145-152): allocates `Out` and runs scan_ into it. -/
def scan [Inhabited T] (In : List T) (m : Mon T) (fl : Flags) :
    Option (List T × T) :=
  scan_ In m fl

/-- sum_bools_serial (lines 163-168). -/
def sum_bools_serial (I : List Bool) : Nat :=
  I.foldl (fun r b => r + (if b then 1 else 0)) 0

/-- An `uninitialized` output buffer: `none` marks a slot not yet
written. -/
def uninit (n : Nat) : List (Option T) := List.replicate n none

/-- pack_serial_at (lines 184-190): scatter the flagged elements to
consecutive positions starting at the write cursor `k`; returns the
buffer and the final cursor. -/
def pack_serial_at (In : List T) (Fl : List Bool) (Out : List (Option T)) (k : Nat) :
    List (Option T) × Nat :=
  match In, Fl with
  | x :: xs, b :: bs =>
    if b then pack_serial_at xs bs (Out.set k (some x)) (k + 1)
    else pack_serial_at xs bs Out k
  | _, _ => (Out, k)

/-- pack_serial (lines 170-181): allocate `sum_bools_serial Fl` slots
uninitialized and fill them left to right. -/
def pack_serial (In : List T) (Fl : List Bool) : List (Option T) :=
  (pack_serial_at In Fl (uninit (sum_bools_serial Fl)) 0).1

/-- pack (lines 192-210): per-block counts, exclusive scan of the counts,
then per-block scatter with the block's base offset.  The C++ hands each
block the destination sub-slice `cut(Sums[i], ...)`; the model passes the
whole buffer and the absolute base cursor. -/
def pack [Inhabited T] (In : List T) (Fl : List Bool) (fl : Flags) :
    Option (List (Option T)) :=
  let n := In.length
  let l := num_blocks n _block_size
  if l = 1 ∨ fl.sequential = true then some (pack_serial In Fl)
  else do
    let Sums := (List.range l).map (fun i =>
      sum_bools_serial (cut Fl (i * _block_size) (min (i * _block_size + _block_size) n)))
    let p ← scan_inplace Sums addm_nat no_flag
    let Out := (List.range l).foldl (fun O i =>
      (pack_serial_at (cut In (i * _block_size) (min (i * _block_size + _block_size) n))
        (cut Fl (i * _block_size) (min (i * _block_size + _block_size) n))
        O (lget p.1 i)).1) (uninit p.2)
    some Out

/-- Helper for stating `reduce_serial` on nonempty lists: fold the tail
onto the head (and `identity` on `[]`). -/
def fold1 (m : Mon T) : List T → T
  | [] => m.identity
  | x :: xs => xs.foldl m.f x

/-- The block decomposition `[A[0..bs), A[bs..2bs), ...]`, as a recursive
function; equal to the `range`/`cut` form used by `sliced_for`
(see `chunks_eq_range_cut`). -/
def chunks : Nat → List T → List (List T)
  | _, [] => []
  | 0, _ :: _ => []
  | bs + 1, x :: xs =>
    (x :: xs).take (bs + 1) :: chunks (bs + 1) ((x :: xs).drop (bs + 1))
termination_by bs A => A.length
decreasing_by
  simp only [List.length_drop, List.length_cons]
  omega

/-- The specified pack output: the subsequence of elements of `In` whose
flag is true, in input order. -/
def packSel (In : List T) (Fl : List Bool) : List T :=
  ((In.zip Fl).filter (fun p => p.2)).map Prod.fst

/-- Sequential writes of `vs` into the buffer starting at position `k`
(the normal form of `pack_serial_at`). -/
def writeAt : List (Option T) → Nat → List T → List (Option T)
  | O, _, [] => O
  | O, k, v :: vs => writeAt (O.set k (some v)) (k + 1) vs

/-! ### split_three (lines 290-332) -/

/-- A slice handle: an abstract storage-region identifier (begin/end
address) plus the contents seen through it. -/
structure MSlice (T : Type) where
  region : Nat × Nat
  data : List T

/-- Modelled from the spec: `slice_eq` comes from sequence.h, which is not
among the sources; per the spec, equality of two slices is defined as
referring to the same underlying storage region. -/
def slice_eq (s t : MSlice T) : Bool := decide (s.region = t.region)

/-- The per-block counting loop of split_three: one pass accumulating
(count of 0s, count of 1s). -/
def count01 (L : List Nat) : Nat × Nat :=
  L.foldl (fun p c =>
    if c = 0 then (p.1 + 1, p.2) else if c = 1 then (p.1, p.2 + 1) else p) (0, 0)

/-- The scatter loop of one split_three block: `cnt` iterations starting
at index `j`, with the three class cursors. -/
def scatter3 [Inhabited T] (In : List T) (Fl : List Nat) :
    Nat → Nat → Nat → Nat → Nat → List T → List T
  | _, 0, _, _, _, O => O
  | j, cnt + 1, c0, c1, c2, O =>
    if lget Fl j = 0 then
      scatter3 In Fl (j + 1) cnt (c0 + 1) c1 c2 (O.set c0 (lget In j))
    else if lget Fl j = 1 then
      scatter3 In Fl (j + 1) cnt c0 (c1 + 1) c2 (O.set c1 (lget In j))
    else
      scatter3 In Fl (j + 1) cnt c0 c1 (c2 + 1) (O.set c2 (lget In j))

/-- split_three (lines 290-332): returns the outcome together with the
final state of the `Out` buffer.  On the thrown `invalid_argument`
(aliased slices) the buffer is returned untouched: the throw is the first
statement of the function, before any write. -/
def split_three [Inhabited T] (In : MSlice T) (Out : MSlice T) (Fl : List Nat)
    (fl : Flags) : Except String (Nat × Nat) × MSlice T :=
  let n := In.data.length
  if slice_eq In Out then
    (Except.error "In and Out cannot be the same in split_three", Out)
  else
    let l := num_blocks n _block_size
    let counts := (List.range l).map (fun i =>
      count01 (cut Fl (i * _block_size) (min (i * _block_size + _block_size) n)))
    let Sums0 := counts.map (fun p => p.1)
    let Sums1 := counts.map (fun p => p.2)
    match scan_inplace Sums0 addm_nat no_flag, scan_inplace Sums1 addm_nat no_flag with
    | some p0, some p1 =>
      let m0 := p0.2
      let m1 := p1.2
      let OutData := (List.range l).foldl (fun O i =>
        let s := i * _block_size
        let e := min (s + _block_size) n
        scatter3 In.data Fl s (e - s)
          (lget p0.1 i) (m0 + lget p1.1 i) (m0 + m1 + (s - lget p0.1 i - lget p1.1 i))
          O) Out.data
      (Except.ok (m0, m1), ⟨Out.region, OutData⟩)
    | _, _ => (Except.error "unreachable", Out)

/-! ### quicksort.h -/

/-- The inner loop of insertion_sort (lines 23-28): the inserted element
sits at relative position `j+1`; while `f(A[j+1], A[j])`, swap downwards.
`insInner f off A j` runs the loop body for `j, j-1, ..., 0` with early
stop. -/
def insInner [Inhabited T] (f : T → T → Bool) (off : Nat) : List T → Nat → List T
  | A, 0 =>
    if f (lget A (off + 1)) (lget A off) then lswap A (off + 1) off else A
  | A, j + 1 =>
    if f (lget A (off + j + 2)) (lget A (off + j + 1)) then
      insInner f off (lswap A (off + j + 2) (off + j + 1)) j
    else A

/-- The outer loop of insertion_sort (`for i = 1; i < n; i++`). -/
def insLoop [Inhabited T] (f : T → T → Bool) (off n : Nat) (i : Nat) (A : List T) :
    List T :=
  if _h : i < n then insLoop f off n (i + 1) (insInner f off A (i - 1)) else A
termination_by n - i

/-- insertion_sort (lines 21-29) on the window `[off, off+n)`. -/
def insertion_sort [Inhabited T] (A : List T) (off n : Nat) (f : T → T → Bool) :
    List T :=
  insLoop f off n 1 A

/-- sort5 (lines 32-38): five strided swaps, then insertion sort of the
first five positions. -/
def sort5 [Inhabited T] (A : List T) (off n : Nat) (f : T → T → Bool) : List T :=
  let m := n / 6
  let A1 := lswap A off (off + m * 1)
  let A2 := lswap A1 (off + 1) (off + m * 2)
  let A3 := lswap A2 (off + 2) (off + m * 3)
  let A4 := lswap A3 (off + 3) (off + m * 4)
  let A5 := lswap A4 (off + 4) (off + m * 5)
  insertion_sort A5 off 5 f

/-- The initial skip loop `while (f(*L, p1)) L++` of split3 (line 60),
with fuel (the C++ relies on a stopper existing). -/
def findL [Inhabited T] (f : T → T → Bool) (A : List T) (off : Nat) (p1 : T) :
    Nat → Nat → Nat
  | L, 0 => L
  | L, fuel + 1 =>
    if f (lget A (off + L)) p1 then findL f A off p1 (L + 1) fuel else L

/-- The downward skip loop `while (f(p2, *R)) R--` of split3 (lines 61
and 82), structurally recursive on `R` (the C++ would walk below index 0
only in undefined-behaviour territory). -/
def findR [Inhabited T] (f : T → T → Bool) (A : List T) (off : Nat) (p2 : T) :
    Nat → Nat
  | 0 => 0
  | r + 1 => if f p2 (lget A (off + r + 1)) then findR f A off p2 r else r + 1

/-- The main partition loop of split3 (lines 69-85).  Returns the array
and the final `(L, M, R)`.  The branch where the swapped-in element is
below `p1` (lines 76-79) is inlined into the two recursive calls. -/
def sloop [Inhabited T] :
    (T → T → Bool) → T → T → List T → Nat → Nat → Nat → Nat →
      List T × Nat × Nat × Nat
  | f, p1, p2, A, off, L, M, R =>
    if _h : M ≤ R then
      if f (lget A (off + M)) p1 then
        sloop f p1 p2 (lswap A (off + M) (off + L)) off (L + 1) (M + 1) R
      else if f p2 (lget A (off + M)) then
        let A1 := lswap A (off + M) (off + R)
        if f (lget A1 (off + M)) p1 then
          let A2 := lswap A1 (off + L) (off + M)
          sloop f p1 p2 A2 off (L + 1) (M + 1) (findR f A2 off p2 (R - 1))
        else
          sloop f p1 p2 A1 off L (M + 1) (findR f A1 off p2 (R - 1))
      else sloop f p1 p2 A off L (M + 1) R
    else (A, L, M, R)
termination_by f p1 p2 A off L M R => R + 1 - M
decreasing_by
  all_goals
    have hfr : ∀ (g : T → T → Bool) (q : T) (B : List T) (o r : Nat),
        findR g B o q r ≤ r := by
      intro g q B o r
      induction r with
      | zero => simp [findR]
      | succ r ih =>
        simp only [findR]
        split
        · omega
        · omega
    have h1 := hfr f p2 (lswap (lswap A (off + M) (off + R)) (off + L) (off + M))
      off (R - 1)
    have h2 := hfr f p2 (lswap A (off + M) (off + R)) off (R - 1)
    omega

/-- split3 (lines 44-94): sort5, move the pivots `A[1], A[3]` to the
front, skip prefixes, run the partition loop, swap the pivots into
place.  Returns the array, the final L (an index; the C++ returns the
iterator `A + L` after `L -= 2`), the final M, and the equal-pivots
flag. -/
def split3 [Inhabited T] (A : List T) (off n : Nat) (f : T → T → Bool) :
    List T × Nat × Nat × Bool :=
  let A1 := sort5 A off n f
  let A2 := lswap A1 off (off + 1)
  let A3 := lswap A2 (off + 1) (off + 3)
  let p1 := lget A3 off
  let p2 := lget A3 (off + 1)
  let pivots_equal := ! f p1 p2
  let L0 := findL f A3 off p1 2 n
  let R0 := findR f A3 off p2 (n - 1)
  let q := sloop f p1 p2 A3 off L0 L0 R0
  let L := q.2.1 - 2
  let R := q.2.2.2
  let A5 := lswap q.1 (off + 1) (off + L + 1)
  let A6 := lswap A5 off (off + L)
  let A7 := lswap A6 (off + L + 1) (off + R)
  (A7, L, q.2.2.1, pivots_equal)

/-- quicksort_serial (lines 96-108), with fuel (`n + 1` suffices); the
`while` loop that continues on the left part (`n = L - A`) is rendered as
the tail call on the left range. -/
def quicksort_serial [Inhabited T] (isPtr : Bool) (szIter : Nat) (f : T → T → Bool) :
    Nat → List T → Nat → Nat → Option (List T)
  | 0, _, _, _ => none
  | fuel + 1, A, off, n =>
    if base_case isPtr szIter n then some (insertion_sort A off n f)
    else
      let q := split3 A off n f
      let L := q.2.1
      let M := q.2.2.1
      do
        let A2 ← if q.2.2.2 then some q.1
          else quicksort_serial isPtr szIter f fuel q.1 (off + L + 1) (M - L - 1)
        let A3 ← quicksort_serial isPtr szIter f fuel A2 (off + M) (n - M)
        quicksort_serial isPtr szIter f fuel A3 off L

/-- quicksort (lines 110-128), with fuel (`n + 1` suffices).  The forks
`par_do3 (left, mid, right)` / `par_do (left, right)` act on disjoint
index ranges; the model runs them in sequence. -/
def quicksort [Inhabited T] (isPtr : Bool) (szIter : Nat) (f : T → T → Bool) :
    Nat → List T → Nat → Nat → Option (List T)
  | 0, _, _, _ => none
  | fuel + 1, A, off, n =>
    if n < 2 ^ 10 then quicksort_serial isPtr szIter f (fuel + 1) A off n
    else
      let q := split3 A off n f
      let L := q.2.1
      let M := q.2.2.1
      do
        let A2 ← quicksort isPtr szIter f fuel q.1 off L
        let A3 ← if q.2.2.2 then some A2
          else quicksort isPtr szIter f fuel A2 (off + L + 1) (M - L - 1)
        quicksort isPtr szIter f fuel A3 (off + M) (n - M)

/-- A strict weak order given as a boolean predicate: irreflexive,
transitive, with transitive incomparability. -/
structure IsSWO (lt : T → T → Bool) : Prop where
  irrefl : ∀ x, lt x x = false
  trans : ∀ x y z, lt x y = true → lt y z = true → lt x z = true
  incomp_trans : ∀ x y z, lt x y = false → lt y x = false →
    lt y z = false → lt z y = false → lt x z = false ∧ lt z x = false

/-- The window `[off+a, off+b)` is sorted by `lt`: no later element is
less than an earlier one. -/
def sortedIdx (lt : T → T → Bool) [Inhabited T] (A : List T) (off a b : Nat) : Prop :=
  ∀ p q, a ≤ p → p < q → q < b → lt (lget A (off + q)) (lget A (off + p)) = false

/-- A list is sorted by `lt`: pairwise, no later element is less than an
earlier one. -/
def SortedBy (lt : T → T → Bool) (l : List T) : Prop :=
  l.Pairwise (fun x y => lt y x = false)

/-- `B` is the result of an in-place operation on the window
`[off, off+n)` of `A`: same length, untouched outside the window, and a
permutation of the window. -/
def RegionOp [Inhabited T] (A B : List T) (off n : Nat) : Prop :=
  B.length = A.length ∧ (∀ k, k < off ∨ off + n ≤ k → lget B k = lget A k) ∧
  List.Perm (seg B off n) (seg A off n)

/-- `operator<` on `Nat`, used for witnesses. -/
def natLt : Nat → Nat → Bool := fun a b => decide (a < b)

/-! ## Lemmas -/

theorem lget_nil [Inhabited T] (i : Nat) : lget ([] : List T) i = default := by
  simp [lget]

@[simp]
theorem lget_cons_zero [Inhabited T] (x : T) (xs : List T) : lget (x :: xs) 0 = x := rfl

@[simp]
theorem lget_cons_succ [Inhabited T] (x : T) (xs : List T) (i : Nat) :
    lget (x :: xs) (i + 1) = lget xs i := rfl

theorem lget_eq_getElem [Inhabited T] (l : List T) (i : Nat) (h : i < l.length) :
    lget l i = l[i] := by
  simp [lget, List.getD_eq_getElem?_getD, List.getElem?_eq_getElem h]

@[simp]
theorem length_lswap [Inhabited T] (l : List T) (i j : Nat) :
    (lswap l i j).length = l.length := by
  simp [lswap]

theorem lget_set [Inhabited T] (l : List T) (i k : Nat) (v : T) :
    lget (l.set i v) k = if i = k ∧ i < l.length then v else lget l k := by
  rcases Nat.lt_or_ge i l.length with hi | hi
  · by_cases hik : i = k
    · subst hik
      simp [lget, List.getD_eq_getElem?_getD, List.getElem?_set_self, hi,
        List.getElem?_eq_getElem hi]
    · simp [lget, List.getD_eq_getElem?_getD, List.getElem?_set_ne hik, hik]
  · rw [List.set_eq_of_length_le hi]
    simp [Nat.not_lt_of_ge hi]

theorem lget_lswap [Inhabited T] (l : List T) (i j k : Nat)
    (hi : i < l.length) (hj : j < l.length) :
    lget (lswap l i j) k =
      if k = j then lget l i else if k = i then lget l j else lget l k := by
  unfold lswap
  rw [lget_set, lget_set]
  by_cases hkj : k = j
  · subst hkj
    simp [hj, List.length_set]
  · have hjk : ¬ (j = k ∧ j < (l.set i (lget l j)).length) := by
      intro h
      exact hkj h.1.symm
    rw [if_neg hjk]
    by_cases hki : k = i
    · subst hki
      rw [if_pos ⟨rfl, hi⟩, if_neg hkj, if_pos rfl]
    · have hik : ¬ (i = k ∧ i < l.length) := by
        intro h
        exact hki h.1.symm
      rw [if_neg hik, if_neg hkj, if_neg hki]

theorem lget_lswap_fst [Inhabited T] (l : List T) (i j : Nat)
    (hi : i < l.length) (hj : j < l.length) :
    lget (lswap l i j) i = lget l j := by
  rw [lget_lswap l i j i hi hj]
  by_cases h : i = j
  · subst h; simp
  · simp [h]

theorem lget_lswap_snd [Inhabited T] (l : List T) (i j : Nat)
    (hi : i < l.length) (hj : j < l.length) :
    lget (lswap l i j) j = lget l i := by
  rw [lget_lswap l i j j hi hj]
  simp

theorem lget_lswap_other [Inhabited T] (l : List T) (i j k : Nat)
    (hki : k ≠ i) (hkj : k ≠ j) :
    lget (lswap l i j) k = lget l k := by
  unfold lswap
  rw [lget_set, lget_set]
  have h1 : ¬ (j = k ∧ j < (l.set i (lget l j)).length) := by
    intro h
    exact hkj h.1.symm
  have h2 : ¬ (i = k ∧ i < l.length) := by
    intro h
    exact hki h.1.symm
  rw [if_neg h1, if_neg h2]

theorem set_perm_cons [Inhabited T] :
    ∀ (l : List T) (m : Nat) (a : T), m < l.length →
      List.Perm (lget l m :: l.set m a) (a :: l) := by
  intro l
  induction l with
  | nil => intro m a h; simp at h
  | cons b t ih =>
    intro m a hm
    cases m with
    | zero => simpa using List.Perm.swap a b t
    | succ m =>
      have hmt : m < t.length := by simpa using hm
      have s1 : List.Perm (lget t m :: b :: t.set m a) (b :: lget t m :: t.set m a) :=
        List.Perm.swap _ _ _
      have s2 : List.Perm (b :: lget t m :: t.set m a) (b :: (a :: t)) :=
        List.Perm.cons b (ih m a hmt)
      have s3 : List.Perm (b :: a :: t) (a :: b :: t) := List.Perm.swap _ _ _
      simpa using (s1.trans s2).trans s3

theorem lswap_perm [Inhabited T] :
    ∀ (l : List T) (i j : Nat), i < l.length → j < l.length →
      List.Perm (lswap l i j) l := by
  intro l
  induction l with
  | nil => intro i j hi; simp at hi
  | cons a t ih =>
    intro i j hi hj
    cases i with
    | zero =>
      cases j with
      | zero => simp [lswap]
      | succ m =>
        have hmt : m < t.length := by simpa using hj
        have : lswap (a :: t) 0 (m + 1) = lget t m :: t.set m a := by
          simp [lswap, lget_eq_getElem t m hmt]
        rw [this]
        exact set_perm_cons t m a hmt
    | succ k =>
      cases j with
      | zero =>
        have hkt : k < t.length := by simpa using hi
        have : lswap (a :: t) (k + 1) 0 = lget t k :: t.set k a := by
          simp [lswap, lget_eq_getElem t k hkt]
        rw [this]
        exact set_perm_cons t k a hkt
      | succ m =>
        have hkt : k < t.length := by simpa using hi
        have hmt : m < t.length := by simpa using hj
        have : lswap (a :: t) (k + 1) (m + 1) = a :: lswap t k m := by
          simp [lswap]
        rw [this]
        exact List.Perm.cons a (ih k m hkt hmt)

theorem seg_length (l : List T) (off n : Nat) (h : off + n ≤ l.length) :
    (seg l off n).length = n := by
  simp [seg]
  omega

theorem seg_getElem [Inhabited T] (l : List T) (off n k : Nat)
    (hk : k < n) (h : off + n ≤ l.length) :
    lget (seg l off n) k = lget l (off + k) := by
  have h1 : k < (seg l off n).length := by rw [seg_length l off n h]; exact hk
  have h2 : off + k < l.length := by omega
  rw [lget_eq_getElem _ _ h1, lget_eq_getElem _ _ h2]
  simp [seg]

/-! ### Blocks, chunks and folds -/

theorem num_blocks_eq_zero (bs : Nat) : num_blocks 0 bs = 0 := by
  simp [num_blocks]

theorem num_blocks_pos_iff (n bs : Nat) : 0 < num_blocks n bs ↔ 0 < n := by
  unfold num_blocks
  by_cases h : n = 0
  · simp [h]
  · rw [if_neg h]
    constructor
    · intro _
      exact Nat.pos_of_ne_zero h
    · intro _
      exact Nat.lt_of_lt_of_le Nat.zero_lt_one (Nat.le_add_right 1 _)

theorem num_blocks_one (n bs : Nat) (hn : 0 < n) (h : n ≤ bs) :
    num_blocks n bs = 1 := by
  have hd : (n - 1) / bs = 0 := by
    apply Nat.div_eq_of_lt
    omega
  unfold num_blocks
  rw [if_neg (by omega), hd]

theorem num_blocks_step (n bs : Nat) (hbs : 0 < bs) (h : bs < n) :
    num_blocks n bs = 1 + num_blocks (n - bs) bs := by
  have h1 : n - 1 = (n - bs - 1) + bs := by omega
  have h2 : (n - 1) / bs = (n - bs - 1) / bs + 1 := by
    rw [h1, Nat.add_div_right _ hbs]
  unfold num_blocks
  rw [if_neg (by omega), if_neg (by omega), h2]
  omega

theorem block_start_lt (n bs i : Nat) (hbs : 0 < bs) (hi : i < num_blocks n bs) :
    i * bs < n := by
  rcases Nat.eq_zero_or_pos n with hn | hn
  · subst hn
    simp [num_blocks_eq_zero] at hi
  · have hnb : num_blocks n bs = 1 + (n - 1) / bs := by
      unfold num_blocks
      rw [if_neg (by omega)]
    rw [hnb] at hi
    have hle : i ≤ (n - 1) / bs := by omega
    have : i * bs ≤ (n - 1) / bs * bs := Nat.mul_le_mul_right bs hle
    have hdm : (n - 1) / bs * bs ≤ n - 1 := Nat.div_mul_le_self (n - 1) bs
    omega

theorem cut_block_length (A : List T) (bs i : Nat) (hbs : 0 < bs)
    (hi : i < num_blocks A.length bs) :
    (cut A (i * bs) (min (i * bs + bs) A.length)).length
      = min (i * bs + bs) A.length - i * bs := by
  have hlt := block_start_lt A.length bs i hbs hi
  simp only [cut, seg, List.length_take, List.length_drop]
  set x := i * bs with hx
  omega

theorem cut_block_ne_nil (A : List T) (bs i : Nat) (hbs : 0 < bs)
    (hi : i < num_blocks A.length bs) :
    cut A (i * bs) (min (i * bs + bs) A.length) ≠ [] := by
  have hlt := block_start_lt A.length bs i hbs hi
  have hlen := cut_block_length A bs i hbs hi
  have hpos : 0 < (cut A (i * bs) (min (i * bs + bs) A.length)).length := by
    rw [hlen]
    set x := i * bs with hx
    omega
  intro hnil
  rw [hnil] at hpos
  simp at hpos

theorem chunks_nil (bs : Nat) : chunks bs ([] : List T) = [] := by
  cases bs <;> simp [chunks]

theorem chunks_cons (bs : Nat) (A : List T) (hA : A ≠ []) (hbs : 0 < bs) :
    chunks bs A = A.take bs :: chunks bs (A.drop bs) := by
  cases A with
  | nil => exact absurd rfl hA
  | cons x xs =>
    cases bs with
    | zero => omega
    | succ b => rw [chunks]

theorem chunks_eq_range_cut (bs : Nat) (hbs : 0 < bs) :
    ∀ (A : List T),
      (List.range (num_blocks A.length bs)).map
        (fun i => cut A (i * bs) (min (i * bs + bs) A.length)) = chunks bs A := by
  suffices h : ∀ (N : Nat) (A : List T), A.length ≤ N →
      (List.range (num_blocks A.length bs)).map
        (fun i => cut A (i * bs) (min (i * bs + bs) A.length)) = chunks bs A by
    intro A
    exact h A.length A (Nat.le_refl _)
  intro N
  induction N with
  | zero =>
    intro A hA
    have hAnil : A = [] := List.length_eq_zero.mp (Nat.le_zero.mp hA)
    subst hAnil
    simp [num_blocks_eq_zero, chunks_nil]
  | succ N ih =>
    intro A hA
    by_cases hAnil : A = []
    · subst hAnil
      simp [num_blocks_eq_zero, chunks_nil]
    · have hn : 0 < A.length := List.length_pos.mpr hAnil
      rw [chunks_cons bs A hAnil hbs]
      have hcut0 : cut A (0 * bs) (min (0 * bs + bs) A.length) = A.take bs := by
        simp only [Nat.zero_mul, Nat.zero_add, cut, seg, List.drop_zero, Nat.sub_zero]
        rcases Nat.le_total bs A.length with h2 | h2
        · rw [Nat.min_eq_left h2]
        · rw [Nat.min_eq_right h2, List.take_length, List.take_of_length_le h2]
      by_cases hle : A.length ≤ bs
      · rw [num_blocks_one A.length bs hn hle]
        have hdrop : A.drop bs = [] := List.drop_eq_nil_of_le hle
        rw [hdrop, chunks_nil]
        have hr1 : List.range 1 = [0] := rfl
        rw [hr1, List.map_cons, List.map_nil, hcut0]
      · push_neg at hle
        rw [num_blocks_step A.length bs hbs hle, Nat.add_comm 1 _,
          List.range_succ_eq_map, List.map_cons, List.map_map, hcut0]
        have hdlen : (A.drop bs).length = A.length - bs := List.length_drop bs A
        have htail :
            (List.range (num_blocks (A.length - bs) bs)).map
              ((fun i => cut A (i * bs) (min (i * bs + bs) A.length)) ∘ Nat.succ)
            = (List.range (num_blocks (A.drop bs).length bs)).map
              (fun i => cut (A.drop bs) (i * bs) (min (i * bs + bs) (A.drop bs).length)) := by
          rw [hdlen]
          apply List.map_congr_left
          intro i hi
          simp only [Function.comp_apply, cut, seg]
          have hsucc : Nat.succ i * bs = i * bs + bs := Nat.succ_mul i bs
          have hdd : (A.drop bs).drop (i * bs) = A.drop (Nat.succ i * bs) := by
            rw [List.drop_drop, Nat.add_comm, ← hsucc]
          rw [hdd]
          congr 1
          rw [hsucc]
          set x := i * bs with hx
          omega
        rw [htail, ih (A.drop bs) (by omega)]

theorem chunks_length (bs : Nat) (hbs : 0 < bs) (A : List T) :
    (chunks bs A).length = num_blocks A.length bs := by
  rw [← chunks_eq_range_cut bs hbs A]
  simp

theorem chunks_flatten (bs : Nat) (hbs : 0 < bs) :
    ∀ (A : List T), (chunks bs A).flatten = A := by
  suffices h : ∀ (N : Nat) (A : List T), A.length ≤ N → (chunks bs A).flatten = A by
    intro A
    exact h A.length A (Nat.le_refl _)
  intro N
  induction N with
  | zero =>
    intro A hA
    have : A = [] := List.length_eq_zero.mp (Nat.le_zero.mp hA)
    subst this
    simp [chunks_nil]
  | succ N ih =>
    intro A hA
    by_cases hAnil : A = []
    · subst hAnil
      simp [chunks_nil]
    · rw [chunks_cons bs A hAnil hbs, List.flatten_cons,
        ih (A.drop bs) (by
          have := List.length_pos.mpr hAnil
          simp [List.length_drop]
          omega),
        List.take_append_drop]

theorem chunks_take_flatten (bs : Nat) (hbs : 0 < bs) :
    ∀ (i : Nat) (A : List T), ((chunks bs A).take i).flatten = A.take (i * bs) := by
  intro i
  induction i with
  | zero => intro A; simp
  | succ i ih =>
    intro A
    by_cases hAnil : A = []
    · subst hAnil
      simp [chunks_nil]
    · rw [chunks_cons bs A hAnil hbs, List.take_succ_cons, List.flatten_cons, ih]
      rw [Nat.succ_mul, Nat.add_comm (i * bs) bs, List.take_add]

theorem foldl_assoc_monoid (m : Mon T) (hm : IsMonoid m) :
    ∀ (L : List T) (a b : T), L.foldl m.f (m.f a b) = m.f a (L.foldl m.f b) := by
  intro L
  induction L with
  | nil => intro a b; rfl
  | cons x xs ih =>
    intro a b
    simp only [List.foldl_cons]
    rw [hm.assoc a b x, ih]

theorem foldl_fold1 (m : Mon T) (hm : IsMonoid m) (L : List T) (z : T) :
    m.f z (fold1 m L) = L.foldl m.f z := by
  cases L with
  | nil => simp [fold1, hm.id_right]
  | cons x xs =>
    simp only [fold1, List.foldl_cons]
    rw [← foldl_assoc_monoid m hm xs z x]

theorem fold1_eq_foldl (m : Mon T) (hm : IsMonoid m) (L : List T) :
    fold1 m L = L.foldl m.f m.identity := by
  rw [← foldl_fold1 m hm L m.identity, hm.id_left]

theorem foldl_map_fold1 (m : Mon T) (hm : IsMonoid m) :
    ∀ (cs : List (List T)) (z : T),
      (cs.map (fold1 m)).foldl m.f z = cs.flatten.foldl m.f z := by
  intro cs
  induction cs with
  | nil => intro z; rfl
  | cons c cs ih =>
    intro z
    simp only [List.map_cons, List.foldl_cons, List.flatten_cons, List.foldl_append]
    rw [foldl_fold1 m hm c z, ih]

theorem reduce_serial_nonempty (A : List T) (m : Mon T) (hA : A ≠ []) :
    reduce_serial A m = some (fold1 m A) := by
  cases A with
  | nil => exact absurd rfl hA
  | cons x xs => rfl

theorem mapM_option_eq_map {α β : Type} (L : List α) (f : α → Option β) (g : α → β)
    (h : ∀ a ∈ L, f a = some (g a)) : L.mapM f = some (L.map g) := by
  induction L with
  | nil => rfl
  | cons a L ih =>
    rw [List.mapM_cons, h a (List.mem_cons_self a L),
      ih (fun b hb => h b (List.mem_cons_of_mem a hb))]
    rfl

theorem block_sums_eq (A : List T) (bs : Nat) (m : Mon T) (hbs : 0 < bs) :
    block_sums A bs m = some ((chunks bs A).map (fold1 m)) := by
  unfold block_sums
  rw [mapM_option_eq_map _ _
    (fun i => fold1 m (cut A (i * bs) (min (i * bs + bs) A.length)))
    (by
      intro i hi
      have hi2 : i < num_blocks A.length bs := List.mem_range.mp hi
      exact reduce_serial_nonempty _ m (cut_block_ne_nil A bs i hbs hi2))]
  rw [show (fun i => fold1 m (cut A (i * bs) (min (i * bs + bs) A.length)))
      = fold1 m ∘ (fun i => cut A (i * bs) (min (i * bs + bs) A.length)) from rfl,
    ← List.map_map, chunks_eq_range_cut bs hbs A]

theorem num_blocks_lt_self (n bs : Nat) (hbs : 1024 ≤ bs) (hl : 2 ≤ num_blocks n bs) :
    num_blocks n bs < n := by
  rcases Nat.eq_zero_or_pos n with hn | hn
  · rw [hn, num_blocks_eq_zero] at hl
    omega
  · have hbn : bs < n := by
      by_contra hc
      push_neg at hc
      rw [num_blocks_one n bs hn hc] at hl
      omega
    have hnb : num_blocks n bs = 1 + (n - 1) / bs := by
      unfold num_blocks
      rw [if_neg (by omega)]
    have hmono : (n - 1) / bs ≤ (n - 1) / 1024 :=
      Nat.div_le_div_left hbs (by omega)
    have hlt : (n - 1) / 1024 < n - 1 := Nat.div_lt_self (by omega) (by omega)
    omega

theorem block_size_ge (n : Nat) : 1024 ≤ max _block_size (4 * natCeilSqrt n) := by
  have : (1024 : Nat) = _block_size := by decide
  rw [this]
  exact Nat.le_max_left _ _

theorem reduce_eq_foldl (m : Mon T) (hm : IsMonoid m) :
    ∀ (fuel : Nat) (A : List T) (fl : Flags), A.length + 1 ≤ fuel →
      reduce fuel A m fl = some (A.foldl m.f m.identity) := by
  intro fuel
  induction fuel with
  | zero =>
    intro A fl h
    omega
  | succ fuel ih =>
    intro A fl hfuel
    simp only [reduce]
    by_cases hl0 : num_blocks A.length (max _block_size (4 * natCeilSqrt A.length)) = 0
    · rw [if_pos hl0]
      have hn : A.length = 0 := by
        by_contra hc
        have := (num_blocks_pos_iff A.length
          (max _block_size (4 * natCeilSqrt A.length))).mpr (Nat.pos_of_ne_zero hc)
        omega
      have hAnil : A = [] := List.length_eq_zero.mp hn
      subst hAnil
      simp
    · rw [if_neg hl0]
      have hApos : 0 < A.length := by
        by_contra hc
        push_neg at hc
        have : A.length = 0 := by omega
        rw [this, num_blocks_eq_zero] at hl0
        exact hl0 rfl
      have hAnil : A ≠ [] := by
        intro h
        rw [h] at hApos
        simp at hApos
      by_cases hser : num_blocks A.length (max _block_size (4 * natCeilSqrt A.length)) = 1
          ∨ fl.sequential = true
      · rw [if_pos hser, reduce_serial_nonempty A m hAnil, fold1_eq_foldl m hm]
      · rw [if_neg hser]
        have hbs : 0 < max _block_size (4 * natCeilSqrt A.length) := by
          have := block_size_ge A.length
          omega
        rw [block_sums_eq A _ m hbs]
        have hl2 : 2 ≤ num_blocks A.length (max _block_size (4 * natCeilSqrt A.length)) := by
          push_neg at hser
          omega
        have hlen : ((chunks (max _block_size (4 * natCeilSqrt A.length)) A).map
            (fold1 m)).length = num_blocks A.length (max _block_size (4 * natCeilSqrt A.length)) := by
          rw [List.length_map, chunks_length _ hbs]
        have hlt := num_blocks_lt_self A.length _ (block_size_ge A.length) hl2
        have hrec := ih ((chunks (max _block_size (4 * natCeilSqrt A.length)) A).map
            (fold1 m)) no_flag (by omega)
        simp only [Option.bind_eq_bind, Option.some_bind]
        rw [hrec, foldl_map_fold1 m hm, chunks_flatten _ hbs]

theorem reduce_isSome (m : Mon T) :
    ∀ (fuel : Nat) (A : List T) (fl : Flags), A.length + 1 ≤ fuel →
      (reduce fuel A m fl).isSome = true := by
  intro fuel
  induction fuel with
  | zero =>
    intro A fl h
    omega
  | succ fuel ih =>
    intro A fl hfuel
    simp only [reduce]
    by_cases hl0 : num_blocks A.length (max _block_size (4 * natCeilSqrt A.length)) = 0
    · rw [if_pos hl0]
      rfl
    · rw [if_neg hl0]
      have hApos : 0 < A.length := by
        by_contra hc
        push_neg at hc
        have h0 : A.length = 0 := by omega
        rw [h0, num_blocks_eq_zero] at hl0
        exact hl0 rfl
      have hAnil : A ≠ [] := by
        intro h
        rw [h] at hApos
        simp at hApos
      by_cases hser : num_blocks A.length (max _block_size (4 * natCeilSqrt A.length)) = 1
          ∨ fl.sequential = true
      · rw [if_pos hser, reduce_serial_nonempty A m hAnil]
        rfl
      · rw [if_neg hser]
        have hbs : 0 < max _block_size (4 * natCeilSqrt A.length) := by
          have := block_size_ge A.length
          omega
        rw [block_sums_eq A _ m hbs]
        have hl2 : 2 ≤ num_blocks A.length (max _block_size (4 * natCeilSqrt A.length)) := by
          push_neg at hser
          omega
        have hlen : ((chunks (max _block_size (4 * natCeilSqrt A.length)) A).map
            (fold1 m)).length
            = num_blocks A.length (max _block_size (4 * natCeilSqrt A.length)) := by
          rw [List.length_map, chunks_length _ hbs]
        have hlt := num_blocks_lt_self A.length _ (block_size_ge A.length) hl2
        simp only [Option.bind_eq_bind, Option.some_bind]
        exact ih _ no_flag (by omega)

/-! ### scan_serial and scan_ -/

theorem scan_serial_excl (m : Mon T) :
    ∀ (In : List T) (offset : T),
      scan_serial In m offset false =
        ((List.range In.length).map (fun i => (In.take i).foldl m.f offset),
          In.foldl m.f offset) := by
  intro In
  induction In with
  | nil => intro offset; simp [scan_serial]
  | cons x xs ih =>
    intro offset
    simp only [scan_serial, Bool.false_eq_true, if_false]
    rw [ih (m.f offset x)]
    rw [List.length_cons, List.range_succ_eq_map, List.map_cons, List.map_map]
    simp only [List.take_zero, List.foldl_nil, List.foldl_cons, Function.comp,
      List.take_succ_cons]
    have hfst : (List.range xs.length).map
          (fun i => List.foldl m.f (m.f offset x) (List.take i xs))
        = (List.range xs.length).map
          ((fun i => List.foldl m.f offset (List.take i (x :: xs))) ∘ Nat.succ) := by
      apply List.map_congr_left
      intro i hi
      simp [List.take_succ_cons]
    rw [hfst]

theorem scan_serial_incl (m : Mon T) :
    ∀ (In : List T) (offset : T),
      scan_serial In m offset true =
        ((List.range In.length).map (fun i => (In.take (i + 1)).foldl m.f offset),
          In.foldl m.f offset) := by
  intro In
  induction In with
  | nil => intro offset; simp [scan_serial]
  | cons x xs ih =>
    intro offset
    simp only [scan_serial, if_true]
    rw [ih (m.f offset x)]
    rw [List.length_cons, List.range_succ_eq_map, List.map_cons, List.map_map]
    simp only [List.take_succ_cons, List.foldl_cons, Function.comp,
      List.take_zero, List.foldl_nil, List.take_cons]
    have hfst : (List.range xs.length).map
          (fun i => List.foldl m.f (m.f offset x) (List.take (i + 1) xs))
        = (List.range xs.length).map
          ((fun i => List.foldl m.f (m.f offset x) (List.take i xs)) ∘ Nat.succ) := by
      apply List.map_congr_left
      intro i hi
      simp [Function.comp]
    rw [hfst]

theorem scan_serial_spec (m : Mon T) (In : List T) (offset : T) (incl : Bool) :
    scan_serial In m offset incl =
      ((List.range In.length).map (fun i =>
        (In.take (i + if incl then 1 else 0)).foldl m.f offset),
        In.foldl m.f offset) := by
  cases incl
  · simpa using scan_serial_excl m In offset
  · simpa using scan_serial_incl m In offset

theorem lget_map_range {α : Type} [Inhabited α] (g : Nat → α) (l i : Nat) (hi : i < l) :
    lget ((List.range l).map g) i = g i := by
  have h1 : i < ((List.range l).map g).length := by simpa using hi
  rw [lget_eq_getElem _ _ h1]
  simp

theorem range_blocks_flatten {α : Type} (bs : Nat) (hbs : 0 < bs) :
    ∀ (n : Nat) (g : Nat → α),
      ((List.range (num_blocks n bs)).map (fun i =>
          (List.range (min (i * bs + bs) n - i * bs)).map (fun j => g (i * bs + j)))).flatten
      = (List.range n).map g := by
  suffices h : ∀ (N n : Nat) (g : Nat → α), n ≤ N →
      ((List.range (num_blocks n bs)).map (fun i =>
          (List.range (min (i * bs + bs) n - i * bs)).map (fun j => g (i * bs + j)))).flatten
      = (List.range n).map g by
    intro n g
    exact h n n g (Nat.le_refl _)
  intro N
  induction N with
  | zero =>
    intro n g hn
    have : n = 0 := Nat.le_zero.mp hn
    subst this
    simp [num_blocks_eq_zero]
  | succ N ih =>
    intro n g hn
    rcases Nat.eq_zero_or_pos n with h0 | hpos
    · subst h0
      simp [num_blocks_eq_zero]
    · by_cases hle : n ≤ bs
      · rw [num_blocks_one n bs hpos hle]
        have hr1 : List.range 1 = [0] := rfl
        rw [hr1, List.map_cons, List.map_nil, List.flatten_cons, List.flatten_nil,
          List.append_nil]
        simp only [Nat.zero_mul, Nat.zero_add, Nat.sub_zero]
        rw [Nat.min_eq_right hle]
      · push_neg at hle
        rw [num_blocks_step n bs hbs hle, Nat.add_comm 1 _, List.range_succ_eq_map,
          List.map_cons, List.map_map, List.flatten_cons]
        have hfirst : (List.range (min (0 * bs + bs) n - 0 * bs)).map
            (fun j => g (0 * bs + j)) = (List.range bs).map g := by
          simp only [Nat.zero_mul, Nat.zero_add, Nat.sub_zero]
          rw [Nat.min_eq_left (Nat.le_of_lt hle)]
        rw [hfirst]
        have htail : (List.range (num_blocks (n - bs) bs)).map
              ((fun i => (List.range (min (i * bs + bs) n - i * bs)).map
                (fun j => g (i * bs + j))) ∘ Nat.succ)
            = (List.range (num_blocks (n - bs) bs)).map (fun i =>
                (List.range (min (i * bs + bs) (n - bs) - i * bs)).map
                  (fun j => g (bs + (i * bs + j)))) := by
          apply List.map_congr_left
          intro i hi
          simp only [Function.comp_apply]
          have hsucc : Nat.succ i * bs = i * bs + bs := Nat.succ_mul i bs
          have hrange : min (Nat.succ i * bs + bs) n - Nat.succ i * bs
              = min (i * bs + bs) (n - bs) - i * bs := by
            rw [hsucc]
            set x := i * bs with hx
            omega
          rw [hrange]
          apply List.map_congr_left
          intro j hj
          congr 1
          rw [hsucc]
          set x := i * bs with hx
          omega
        rw [htail, ih (n - bs) (fun t => g (bs + t)) (by omega)]
        have hsplit : n = bs + (n - bs) := by omega
        have hr : (List.range n).map g
            = (List.range bs).map g ++ (List.range (n - bs)).map (fun t => g (bs + t)) := by
          conv_lhs => rw [hsplit]
          rw [List.range_add, List.map_append, List.map_map]
          rfl
        rw [hr]

theorem scan_isSome [Inhabited T] (In : List T) (m : Mon T) (fl : Flags) :
    (scan_ In m fl).isSome = true := by
  unfold scan_
  by_cases hser : num_blocks In.length _block_size ≤ 2 ∨ fl.sequential = true
  · rw [if_pos hser]
    rfl
  · rw [if_neg hser]
    rw [block_sums_eq In _block_size m (by decide)]
    simp only [Option.bind_eq_bind, Option.some_bind]
    rfl

theorem scan_spec [Inhabited T] (m : Mon T) (hm : IsMonoid m) (In : List T) (fl : Flags) :
    scan_ In m fl = some (
      (List.range In.length).map (fun i =>
        (In.take (i + if fl.scan_inclusive then 1 else 0)).foldl m.f m.identity),
      In.foldl m.f m.identity) := by
  unfold scan_
  by_cases hser : num_blocks In.length _block_size ≤ 2 ∨ fl.sequential = true
  · rw [if_pos hser, scan_serial_spec]
  · rw [if_neg hser]
    have hbs : (0 : Nat) < _block_size := by decide
    have hl2 : 2 < num_blocks In.length _block_size := by
      push_neg at hser
      omega
    rw [block_sums_eq In _block_size m hbs]
    simp only [Option.bind_eq_bind, Option.some_bind]
    have hSl : ((chunks _block_size In).map (fold1 m)).length
        = num_blocks In.length _block_size := by
      rw [List.length_map, chunks_length _block_size hbs]
    have htot : (scan_serial ((chunks _block_size In).map (fold1 m)) m m.identity false).2
        = In.foldl m.f m.identity := by
      rw [scan_serial_excl m _ m.identity]
      simp only
      rw [foldl_map_fold1 m hm, chunks_flatten _block_size hbs]
    have hoffset : ∀ i, i < num_blocks In.length _block_size →
        lget (scan_serial ((chunks _block_size In).map (fold1 m)) m m.identity false).1 i
        = (In.take (i * _block_size)).foldl m.f m.identity := by
      intro i hi
      rw [scan_serial_excl m _ m.identity]
      simp only
      rw [hSl, lget_map_range _ _ i hi]
      rw [← List.map_take, foldl_map_fold1 m hm, chunks_take_flatten _block_size hbs]
    have hout : ((List.range (num_blocks In.length _block_size)).map (fun i =>
          (scan_serial
            (cut In (i * _block_size) (min (i * _block_size + _block_size) In.length))
            m
            (lget (scan_serial ((chunks _block_size In).map (fold1 m)) m m.identity false).1 i)
            fl.scan_inclusive).1)).flatten
        = (List.range In.length).map (fun i =>
            (In.take (i + if fl.scan_inclusive then 1 else 0)).foldl m.f m.identity) := by
      rw [← range_blocks_flatten _block_size hbs In.length (fun i =>
        (In.take (i + if fl.scan_inclusive then 1 else 0)).foldl m.f m.identity)]
      congr 1
      apply List.map_congr_left
      intro i hi
      have hil : i < num_blocks In.length _block_size := List.mem_range.mp hi
      rw [hoffset i hil, scan_serial_spec]
      simp only
      rw [cut_block_length In _block_size i hbs hil]
      apply List.map_congr_left
      intro j hj
      have hjlt : j < min (i * _block_size + _block_size) In.length - i * _block_size :=
        List.mem_range.mp hj
      have htk : (cut In (i * _block_size) (min (i * _block_size + _block_size) In.length)).take
            (j + if fl.scan_inclusive then 1 else 0)
          = (In.drop (i * _block_size)).take (j + if fl.scan_inclusive then 1 else 0) := by
        simp only [cut, seg, List.take_take]
        congr 1
        rcases fl.scan_inclusive with _ | _ <;>
          · simp only [Bool.false_eq_true, if_false, if_true]
            set x := i * _block_size with hx
            omega
      rw [htk, ← List.foldl_append, ← List.take_add, ← Nat.add_assoc]
    rw [htot, hout]

/-! ### pack -/

theorem sum_bools_serial_eq (L : List Bool) :
    sum_bools_serial L = (L.filter (fun b => b)).length := by
  suffices h : ∀ z : Nat, L.foldl (fun r b => r + if b then 1 else 0) z
      = z + (L.filter (fun b => b)).length by
    simpa [sum_bools_serial] using h 0
  induction L with
  | nil => intro z; simp
  | cons b bs ih =>
    intro z
    cases b
    · simpa using ih z
    · simp only [List.foldl_cons, if_true, List.filter_cons_of_pos]
      rw [ih (z + 1)]
      simp only [List.length_cons]
      omega

theorem packSel_cons (x : T) (xs : List T) (b : Bool) (bs : List Bool) :
    packSel (x :: xs) (b :: bs)
      = if b then x :: packSel xs bs else packSel xs bs := by
  cases b <;> simp [packSel, List.filter_cons]

theorem packSel_length :
    ∀ (In : List T) (Fl : List Bool), In.length = Fl.length →
      (packSel In Fl).length = (Fl.filter (fun b => b)).length := by
  intro In
  induction In with
  | nil =>
    intro Fl h
    have hFl : Fl = [] := List.length_eq_zero.mp h.symm
    subst hFl
    simp [packSel]
  | cons x xs ih =>
    intro Fl h
    cases Fl with
    | nil => simp at h
    | cons b bs =>
      rw [packSel_cons]
      cases b
      · simpa using ih bs (by simpa using h)
      · simp only [if_true, List.length_cons, List.filter_cons_of_pos]
        rw [ih bs (by simpa using h)]

theorem packSel_append (A1 A2 : List T) (F1 F2 : List Bool)
    (h : A1.length = F1.length) :
    packSel (A1 ++ A2) (F1 ++ F2) = packSel A1 F1 ++ packSel A2 F2 := by
  simp [packSel, List.zip_append h, List.filter_append]

theorem pack_serial_at_spec :
    ∀ (In : List T) (Fl : List Bool) (Out : List (Option T)) (k : Nat),
      pack_serial_at In Fl Out k
        = (writeAt Out k (packSel In Fl), k + (packSel In Fl).length) := by
  intro In
  induction In with
  | nil =>
    intro Fl Out k
    cases Fl <;> simp [pack_serial_at, packSel, writeAt]
  | cons x xs ih =>
    intro Fl Out k
    cases Fl with
    | nil => simp [pack_serial_at, packSel, writeAt]
    | cons b bs =>
      cases b
      · simp only [pack_serial_at, Bool.false_eq_true, if_false, packSel_cons]
        exact ih bs Out k
      · simp only [pack_serial_at, if_true, packSel_cons]
        rw [ih bs (Out.set k (some x)) (k + 1)]
        simp only [writeAt, List.length_cons]
        have harith : k + 1 + (packSel xs bs).length = k + ((packSel xs bs).length + 1) := by
          omega
        rw [harith]

theorem uninit_succ (q : Nat) : (uninit (q + 1) : List (Option T)) = none :: uninit q := by
  simp [uninit, List.replicate_succ]

theorem writeAt_fill :
    ∀ (vs w : List T) (r : Nat),
      writeAt (w.map some ++ uninit (vs.length + r)) w.length vs
        = (w ++ vs).map some ++ uninit r := by
  intro vs
  induction vs with
  | nil => intro w r; simp [writeAt]
  | cons v vs ih =>
    intro w r
    simp only [writeAt]
    have hset : ∀ (w : List T),
        ((w.map some ++ uninit (vs.length + 1 + r)).set w.length (some v))
        = (w ++ [v]).map some ++ uninit (vs.length + r) := by
      intro w
      induction w with
      | nil =>
        have h1 : vs.length + 1 + r = (vs.length + r) + 1 := by omega
        rw [h1]
        simp [uninit_succ]
      | cons a w ihw =>
        simp only [List.map_cons, List.cons_append, List.length_cons, List.set_cons_succ]
        rw [ihw]
    simp only [List.length_cons]
    rw [hset w]
    have hlen1 : w.length + 1 = (w ++ [v]).length := by simp
    rw [hlen1, ih (w ++ [v]) r]
    simp

theorem writeAt_fill_zero (vs : List T) :
    writeAt (uninit vs.length) 0 vs = vs.map some := by
  have h := writeAt_fill vs [] 0
  simpa [uninit] using h

theorem le_num_blocks_mul (n bs : Nat) (hbs : 0 < bs) : n ≤ num_blocks n bs * bs := by
  rcases Nat.eq_zero_or_pos n with h0 | hpos
  · subst h0
    simp
  · unfold num_blocks
    rw [if_neg (by omega), Nat.add_comm 1 ((n - 1) / bs), Nat.succ_mul,
      Nat.mul_comm ((n - 1) / bs) bs]
    have hdm := Nat.div_add_mod (n - 1) bs
    have hmod : (n - 1) % bs < bs := Nat.mod_lt _ hbs
    omega

theorem take_cut_split (X : List T) (s bs n : Nat) (hn : n = X.length) :
    X.take (s + bs) = X.take s ++ cut X s (min (s + bs) n) := by
  subst hn
  rw [List.take_add]
  congr 1
  simp only [cut, seg]
  rcases Nat.le_total (s + bs) X.length with h | h
  · rw [Nat.min_eq_left h]
    congr 1
    omega
  · rw [Nat.min_eq_right h]
    rw [List.take_of_length_le (by simp; omega), List.take_of_length_le (by simp)]

theorem cut_length_congr {S : Type} (A : List T) (B : List S) (h : A.length = B.length)
    (s e : Nat) : (cut A s e).length = (cut B s e).length := by
  simp [cut, seg, h]

theorem pack_prefix_counts (In : List T) (Fl : List Bool) (hlen : In.length = Fl.length) :
    ∀ i : Nat,
      ((List.range i).map (fun t => sum_bools_serial
        (cut Fl (t * _block_size) (min (t * _block_size + _block_size) In.length)))).foldl
        addm_nat.f addm_nat.identity
      = (packSel (In.take (i * _block_size)) (Fl.take (i * _block_size))).length := by
  intro i
  induction i with
  | zero => simp [packSel, addm_nat]
  | succ i ih =>
    rw [List.range_succ, List.map_append, List.foldl_append]
    simp only [List.map_cons, List.map_nil, List.foldl_cons, List.foldl_nil]
    rw [ih]
    rw [Nat.succ_mul, take_cut_split In (i * _block_size) _block_size In.length rfl,
      take_cut_split Fl (i * _block_size) _block_size In.length hlen]
    rw [packSel_append _ _ _ _ (by simp [hlen])]
    rw [List.length_append]
    rw [sum_bools_serial_eq,
      ← packSel_length _ _ (cut_length_congr In Fl hlen (i * _block_size)
        (min (i * _block_size + _block_size) In.length))]
    rfl

theorem pack_blocks_fold [Inhabited T] (In : List T) (Fl : List Bool)
    (hlen : In.length = Fl.length) (Sums2 : List Nat)
    (hS : ∀ i, i < num_blocks In.length _block_size →
      lget Sums2 i = (packSel (In.take (i * _block_size)) (Fl.take (i * _block_size))).length) :
    ∀ j, j ≤ num_blocks In.length _block_size →
      (List.range j).foldl (fun O i =>
        (pack_serial_at
          (cut In (i * _block_size) (min (i * _block_size + _block_size) In.length))
          (cut Fl (i * _block_size) (min (i * _block_size + _block_size) In.length))
          O (lget Sums2 i)).1) (uninit (packSel In Fl).length)
      = ((packSel (In.take (j * _block_size)) (Fl.take (j * _block_size))).map some)
        ++ uninit ((packSel In Fl).length
          - (packSel (In.take (j * _block_size)) (Fl.take (j * _block_size))).length) := by
  intro j
  induction j with
  | zero =>
    intro hj
    simp [packSel, uninit]
  | succ j ih =>
    intro hj
    rw [List.range_succ, List.foldl_append]
    rw [ih (by omega)]
    simp only [List.foldl_cons, List.foldl_nil]
    rw [pack_serial_at_spec]
    simp only
    rw [hS j (by omega)]
    have hPsplit : packSel (In.take (Nat.succ j * _block_size))
          (Fl.take (Nat.succ j * _block_size))
        = packSel (In.take (j * _block_size)) (Fl.take (j * _block_size))
          ++ packSel
            (cut In (j * _block_size) (min (j * _block_size + _block_size) In.length))
            (cut Fl (j * _block_size) (min (j * _block_size + _block_size) In.length)) := by
      rw [Nat.succ_mul, take_cut_split In _ _ In.length rfl,
        take_cut_split Fl _ _ In.length hlen]
      exact packSel_append _ _ _ _ (by simp [hlen])
    have hPlen := congrArg List.length hPsplit
    rw [List.length_append] at hPlen
    have hbound : (packSel (In.take (Nat.succ j * _block_size))
          (Fl.take (Nat.succ j * _block_size))).length
        ≤ (packSel In Fl).length := by
      have hdecomp : packSel In Fl
          = packSel (In.take (Nat.succ j * _block_size)) (Fl.take (Nat.succ j * _block_size))
            ++ packSel (In.drop (Nat.succ j * _block_size)) (Fl.drop (Nat.succ j * _block_size)) := by
        conv_lhs => rw [← List.take_append_drop (Nat.succ j * _block_size) In,
          ← List.take_append_drop (Nat.succ j * _block_size) Fl]
        exact packSel_append _ _ _ _ (by simp [hlen])
      rw [hdecomp, List.length_append]
      omega
    have harith : (packSel In Fl).length
          - (packSel (In.take (j * _block_size)) (Fl.take (j * _block_size))).length
        = (packSel
            (cut In (j * _block_size) (min (j * _block_size + _block_size) In.length))
            (cut Fl (j * _block_size) (min (j * _block_size + _block_size) In.length))).length
          + ((packSel In Fl).length
            - (packSel (In.take (Nat.succ j * _block_size))
                (Fl.take (Nat.succ j * _block_size))).length) := by
      omega
    rw [harith, writeAt_fill, hPsplit]

theorem pack_spec [Inhabited T] (In : List T) (Fl : List Bool) (fl : Flags)
    (hlen : In.length = Fl.length) :
    pack In Fl fl = some ((packSel In Fl).map some) := by
  have hm : IsMonoid addm_nat :=
    ⟨fun a b c => Nat.add_assoc a b c, fun a => Nat.zero_add a, fun a => Nat.add_zero a⟩
  unfold pack
  by_cases hser : num_blocks In.length _block_size = 1 ∨ fl.sequential = true
  · rw [if_pos hser]
    congr 1
    unfold pack_serial
    rw [pack_serial_at_spec]
    simp only
    rw [sum_bools_serial_eq, ← packSel_length In Fl hlen, writeAt_fill_zero]
  · rw [if_neg hser]
    simp only [scan_inplace]
    set Sums : List Nat := (List.range (num_blocks In.length _block_size)).map (fun i =>
      sum_bools_serial (cut Fl (i * _block_size)
        (min (i * _block_size + _block_size) In.length))) with hSums
    rw [scan_spec addm_nat hm Sums no_flag]
    simp only [Option.bind_eq_bind, Option.some_bind]
    have hlenS : Sums.length = num_blocks In.length _block_size := by
      rw [hSums]
      simp
    have hcover : In.length ≤ num_blocks In.length _block_size * _block_size :=
      le_num_blocks_mul In.length _block_size (by decide)
    have htakeIn : In.take (num_blocks In.length _block_size * _block_size) = In :=
      List.take_of_length_le hcover
    have htakeFl : Fl.take (num_blocks In.length _block_size * _block_size) = Fl :=
      List.take_of_length_le (by omega)
    have htot : Sums.foldl addm_nat.f addm_nat.identity = (packSel In Fl).length := by
      rw [hSums, pack_prefix_counts In Fl hlen (num_blocks In.length _block_size),
        htakeIn, htakeFl]
    have hS : ∀ i, i < num_blocks In.length _block_size →
        lget ((List.range Sums.length).map (fun t =>
          (Sums.take (t + if no_flag.scan_inclusive then 1 else 0)).foldl
            addm_nat.f addm_nat.identity)) i
        = (packSel (In.take (i * _block_size)) (Fl.take (i * _block_size))).length := by
      intro i hi
      rw [hlenS, lget_map_range _ _ i hi]
      show (Sums.take i).foldl addm_nat.f addm_nat.identity = _
      rw [hSums, ← List.map_take, List.take_range, Nat.min_eq_left (Nat.le_of_lt hi)]
      exact pack_prefix_counts In Fl hlen i
    rw [htot]
    congr 1
    have hmain := pack_blocks_fold In Fl hlen _ hS
      (num_blocks In.length _block_size) (Nat.le_refl _)
    rw [hmain, htakeIn, htakeFl]
    simp [uninit]

/-! ### Region operations -/

theorem seg_congr [Inhabited T] (A B : List T) (off n : Nat)
    (hlen : B.length = A.length)
    (h : ∀ k, off ≤ k → k < off + n → lget B k = lget A k)
    (hb : off + n ≤ A.length) : seg B off n = seg A off n := by
  apply List.ext_getElem
  · rw [seg_length B off n (by omega), seg_length A off n hb]
  · intro i h1 h2
    have hi : i < n := by
      rw [seg_length A off n hb] at h2
      exact h2
    rw [← lget_eq_getElem _ _ h1, ← lget_eq_getElem _ _ h2,
      seg_getElem B off n i hi (by omega), seg_getElem A off n i hi hb]
    exact h (off + i) (by omega) (by omega)

theorem seg_lswap [Inhabited T] (A : List T) (off n a b : Nat)
    (ha : a < n) (hb : b < n) (hlen : off + n ≤ A.length) :
    seg (lswap A (off + a) (off + b)) off n = lswap (seg A off n) a b := by
  have hLa : off + a < A.length := by omega
  have hLb : off + b < A.length := by omega
  have hsl : (seg A off n).length = n := seg_length A off n hlen
  apply List.ext_getElem
  · rw [seg_length _ off n (by rw [length_lswap]; exact hlen), length_lswap, hsl]
  · intro i h1 h2
    have hi : i < n := by
      rw [seg_length _ off n (by rw [length_lswap]; exact hlen)] at h1
      exact h1
    rw [← lget_eq_getElem _ _ h1, ← lget_eq_getElem _ _ h2,
      seg_getElem _ off n i hi (by rw [length_lswap]; exact hlen),
      lget_lswap A (off + a) (off + b) (off + i) hLa hLb,
      lget_lswap (seg A off n) a b i (by omega) (by omega)]
    by_cases hib : i = b
    · rw [if_pos (by omega), if_pos hib, seg_getElem A off n a ha hlen]
    · rw [if_neg (by omega), if_neg hib]
      by_cases hia : i = a
      · rw [if_pos (by omega), if_pos hia, seg_getElem A off n b hb hlen]
      · rw [if_neg (by omega), if_neg hia, seg_getElem A off n i hi hlen]

theorem RegionOp_refl [Inhabited T] (A : List T) (off n : Nat) :
    RegionOp A A off n :=
  ⟨rfl, fun _ _ => rfl, List.Perm.refl _⟩

theorem RegionOp_trans [Inhabited T] {A B C : List T} {off n : Nat}
    (h1 : RegionOp A B off n) (h2 : RegionOp B C off n) : RegionOp A C off n :=
  ⟨h2.1.trans h1.1, fun k hk => (h2.2.1 k hk).trans (h1.2.1 k hk),
    h2.2.2.trans h1.2.2⟩

theorem RegionOp_lswap [Inhabited T] (A : List T) (off n a b : Nat)
    (ha : a < n) (hb : b < n) (hlen : off + n ≤ A.length) :
    RegionOp A (lswap A (off + a) (off + b)) off n := by
  refine ⟨length_lswap A _ _, ?_, ?_⟩
  · intro k hk
    exact lget_lswap_other A (off + a) (off + b) k (by omega) (by omega)
  · rw [seg_lswap A off n a b ha hb hlen]
    exact lswap_perm (seg A off n) a b
      (by rw [seg_length A off n hlen]; omega)
      (by rw [seg_length A off n hlen]; omega)

theorem seg_decompose (X : List T) (off n a b : Nat) (h : a + b ≤ n) :
    seg X off n
      = seg X off a ++ seg X (off + a) b ++ seg X (off + a + b) (n - a - b) := by
  simp only [seg]
  have hn : n = a + (b + (n - a - b)) := by omega
  rw [hn, List.take_add, List.take_add]
  have hd1 : (X.drop off).drop a = X.drop (off + a) := by
    rw [List.drop_drop, Nat.add_comm]
  have hd2 : (X.drop (off + a)).drop b = X.drop (off + a + b) := by
    rw [List.drop_drop, Nat.add_comm]
  rw [hd1, hd2, List.append_assoc]
  have harith : a + (b + (n - a - b)) - a - b = n - a - b := by omega
  rw [harith]

theorem RegionOp_mono [Inhabited T] {A B : List T} {off2 n2 : Nat} (off n : Nat)
    (h : RegionOp A B off2 n2) (h1 : off ≤ off2) (h2 : off2 + n2 ≤ off + n)
    (hlen : off + n ≤ A.length) : RegionOp A B off n := by
  obtain ⟨hL, hF, hP⟩ := h
  refine ⟨hL, ?_, ?_⟩
  · intro k hk
    exact hF k (by omega)
  · have ha : (off2 - off) + n2 ≤ n := by omega
    have hdA := seg_decompose A off n (off2 - off) n2 ha
    have hdB := seg_decompose B off n (off2 - off) n2 ha
    have hoff2 : off + (off2 - off) = off2 := by omega
    rw [hoff2] at hdA hdB
    rw [hdA, hdB]
    have hpre : seg B off (off2 - off) = seg A off (off2 - off) := by
      apply seg_congr A B off (off2 - off) hL _ (by omega)
      intro k hk1 hk2
      exact hF k (by omega)
    have hpost : seg B (off2 + n2) (n - (off2 - off) - n2)
        = seg A (off2 + n2) (n - (off2 - off) - n2) := by
      apply seg_congr A B (off2 + n2) _ hL _ (by omega)
      intro k hk1 hk2
      exact hF k (by omega)
    rw [hpre, hpost]
    exact List.Perm.append ((List.Perm.refl _).append hP) (List.Perm.refl _)

theorem sortedIdx_of_frame [Inhabited T] (lt : T → T → Bool) (A B : List T)
    (off a b : Nat)
    (h : ∀ k, a ≤ k → k < b → lget B (off + k) = lget A (off + k))
    (hs : sortedIdx lt A off a b) : sortedIdx lt B off a b := by
  intro p q hp hpq hq
  rw [h p hp (by omega), h q (by omega) hq]
  exact hs p q hp hpq hq

theorem sortedIdx_iff_SortedBy [Inhabited T] (lt : T → T → Bool) (A : List T)
    (off n : Nat) (hlen : off + n ≤ A.length) :
    SortedBy lt (seg A off n) ↔ sortedIdx lt A off 0 n := by
  rw [SortedBy, List.pairwise_iff_getElem]
  constructor
  · intro h p q hp hpq hq
    have hsl : (seg A off n).length = n := seg_length A off n hlen
    have hh := h p q (by omega) (by omega) hpq
    rw [← lget_eq_getElem _ p (by omega), ← lget_eq_getElem _ q (by omega),
      seg_getElem A off n p (by omega) hlen, seg_getElem A off n q hq hlen] at hh
    exact hh
  · intro h i j hi hj hij
    have hsl : (seg A off n).length = n := seg_length A off n hlen
    have hh := h i j (Nat.zero_le _) hij (by omega)
    rw [← lget_eq_getElem _ i hi, ← lget_eq_getElem _ j hj,
      seg_getElem A off n i (by omega) hlen, seg_getElem A off n j (by omega) hlen]
    exact hh

/-! ### Strict weak orders -/

theorem swo_asymm {lt : T → T → Bool} (hswo : IsSWO lt) {x y : T}
    (h : lt x y = true) : lt y x = false := by
  cases hyx : lt y x
  · rfl
  · have h2 := hswo.trans x y x h hyx
    rw [hswo.irrefl x] at h2
    exact absurd h2 (by simp)

theorem swo_neg_trans {lt : T → T → Bool} (hswo : IsSWO lt) {x y z : T}
    (hxy : lt x y = false) (hyz : lt y z = false) : lt x z = false := by
  cases hxz : lt x z
  · rfl
  · exfalso
    cases hyx : lt y x
    · cases hzy : lt z y
      · have h2 := (hswo.incomp_trans x y z hxy hyx hyz hzy).1
        rw [hxz] at h2
        exact absurd h2 (by simp)
      · have h2 := hswo.trans x z y hxz hzy
        rw [hxy] at h2
        exact absurd h2 (by simp)
    · have h2 := hswo.trans y x z hyx hxz
      rw [hyz] at h2
      exact absurd h2 (by simp)

theorem swo_split {lt : T → T → Bool} (hswo : IsSWO lt) {x z : T}
    (h : lt x z = true) (y : T) : lt x y = true ∨ lt y z = true := by
  cases hxy : lt x y
  · cases hyz : lt y z
    · have h2 := swo_neg_trans hswo hxy hyz
      rw [h] at h2
      exact absurd h2 (by simp)
    · exact Or.inr rfl
  · exact Or.inl rfl

/-! ### insertion_sort -/

theorem insInner_spec [Inhabited T] (lt : T → T → Bool) (hswo : IsSWO lt)
    (off i : Nat) :
    ∀ (j : Nat) (A : List T), j + 1 ≤ i → off + i + 1 ≤ A.length →
      sortedIdx lt A off 0 (j + 1) →
      sortedIdx lt A off (j + 1) (i + 1) →
      (∀ p q, p ≤ j → j + 2 ≤ q → q ≤ i →
        lt (lget A (off + q)) (lget A (off + p)) = false) →
      RegionOp A (insInner lt off A j) off (i + 1) ∧
      sortedIdx lt (insInner lt off A j) off 0 (i + 1) := by
  intro j
  induction j with
  | zero =>
    intro A hji hlen h1 h2 h3
    simp only [insInner]
    have h30 : ∀ q, 2 ≤ q → q ≤ i → lt (lget A (off + q)) (lget A off) = false := by
      intro q hq2 hqi
      have h := h3 0 q (Nat.le_refl 0) hq2 hqi
      exact h
    by_cases hc : lt (lget A (off + 1)) (lget A off) = true
    · rw [if_pos hc]
      have hb1 : off + 1 < A.length := by omega
      have hb0 : off < A.length := by omega
      have hreg : RegionOp A (lswap A (off + 1) off) off (i + 1) := by
        have h := RegionOp_lswap A off (i + 1) 1 0 (by omega) (by omega) (by omega)
        exact h
      refine ⟨hreg, ?_⟩
      have hv0 : lget (lswap A (off + 1) off) off = lget A (off + 1) :=
        lget_lswap_snd A (off + 1) off hb1 hb0
      have hv1 : lget (lswap A (off + 1) off) (off + 1) = lget A off :=
        lget_lswap_fst A (off + 1) off hb1 hb0
      have hvk : ∀ k, 2 ≤ k →
          lget (lswap A (off + 1) off) (off + k) = lget A (off + k) := fun k hk =>
        lget_lswap_other A (off + 1) off (off + k) (by omega) (by omega)
      intro p q hp hpq hq
      rcases Nat.lt_or_ge q 2 with hq2 | hq2
      · have hp0 : p = 0 := by omega
        have hq1 : q = 1 := by omega
        subst hp0
        subst hq1
        show lt (lget (lswap A (off + 1) off) (off + 1))
          (lget (lswap A (off + 1) off) off) = false
        rw [hv1, hv0]
        exact swo_asymm hswo hc
      · rcases Nat.eq_or_lt_of_le hp with hp0 | hp1
        · rw [← hp0]
          show lt (lget (lswap A (off + 1) off) (off + q))
            (lget (lswap A (off + 1) off) off) = false
          rw [hvk q hq2, hv0]
          exact h2 1 q (by omega) (by omega) (by omega)
        · rcases Nat.lt_or_ge p 2 with hp2 | hp2
          · have hp1e : p = 1 := by omega
            subst hp1e
            rw [hvk q hq2, hv1]
            exact h30 q hq2 (by omega)
          · rw [hvk q hq2, hvk p hp2]
            exact h2 p q (by omega) (by omega) (by omega)
    · rw [if_neg hc]
      refine ⟨RegionOp_refl A off (i + 1), ?_⟩
      have hstop : lt (lget A (off + 1)) (lget A off) = false := by
        cases hcc : lt (lget A (off + 1)) (lget A off)
        · rfl
        · exact absurd hcc hc
      intro p q hp hpq hq
      rcases Nat.lt_or_ge q 2 with hq2 | hq2
      · have hp0 : p = 0 := by omega
        have hq1 : q = 1 := by omega
        subst hp0
        subst hq1
        show lt (lget A (off + 1)) (lget A off) = false
        exact hstop
      · rcases Nat.eq_or_lt_of_le hp with hp0 | hp1
        · have hq1 : lt (lget A (off + q)) (lget A (off + 1)) = false :=
            h2 1 q (by omega) (by omega) (by omega)
          rw [← hp0]
          show lt (lget A (off + q)) (lget A off) = false
          exact swo_neg_trans hswo hq1 hstop
        · exact h2 p q (by omega) (by omega) (by omega)
  | succ j ih =>
    intro A hji hlen h1 h2 h3
    simp only [insInner]
    by_cases hc : lt (lget A (off + j + 2)) (lget A (off + j + 1)) = true
    · rw [if_pos hc]
      have hbj2 : off + j + 2 < A.length := by omega
      have hbj1 : off + j + 1 < A.length := by omega
      set B := lswap A (off + j + 2) (off + j + 1) with hB
      have hvj1 : lget B (off + (j + 1)) = lget A (off + (j + 2)) := by
        rw [hB, show off + (j + 1) = off + j + 1 from by omega]
        have h := lget_lswap_snd A (off + j + 2) (off + j + 1) hbj2 hbj1
        rw [h]
        congr 1
      have hvj2 : lget B (off + (j + 2)) = lget A (off + (j + 1)) := by
        rw [hB, show off + (j + 2) = off + j + 2 from by omega]
        have h := lget_lswap_fst A (off + j + 2) (off + j + 1) hbj2 hbj1
        rw [h]
        congr 1
      have hvk : ∀ k, k ≠ j + 1 → k ≠ j + 2 → lget B (off + k) = lget A (off + k) := by
        intro k hk1 hk2
        rw [hB]
        exact lget_lswap_other A (off + j + 2) (off + j + 1) (off + k)
          (by omega) (by omega)
      have hreg : RegionOp A B off (i + 1) := by
        rw [hB, show off + j + 2 = off + (j + 2) from by omega,
          show off + j + 1 = off + (j + 1) from by omega]
        exact RegionOp_lswap A off (i + 1) (j + 2) (j + 1) (by omega) (by omega)
          (by omega)
      have hrec := ih B (by omega) (by rw [hB, length_lswap]; exact hlen)
        (by
          intro p q hp hpq hq
          rw [hvk p (by omega) (by omega), hvk q (by omega) (by omega)]
          exact h1 p q hp hpq (by omega))
        (by
          intro p q hp hpq hq
          rcases Nat.eq_or_lt_of_le hp with hpj1 | hpj1
          · rw [← hpj1, hvj1]
            rcases Nat.eq_or_lt_of_le (show j + 2 ≤ q from by omega) with hqj2 | hqj2
            · rw [← hqj2, hvj2]
              exact swo_asymm hswo hc
            · rw [hvk q (by omega) (by omega)]
              exact h2 (j + 2) q (by omega) (by omega) hq
          · rcases Nat.eq_or_lt_of_le (show j + 2 ≤ p from by omega) with hpj2 | hpj2
            · rw [← hpj2, hvj2, hvk q (by omega) (by omega)]
              exact h3 (j + 1) q (by omega) (by omega) (by omega)
            · rw [hvk p (by omega) (by omega), hvk q (by omega) (by omega)]
              exact h2 p q (by omega) hpq hq)
        (by
          intro p q hp hq2 hqi
          rw [hvk p (by omega) (by omega)]
          rcases Nat.eq_or_lt_of_le hq2 with hqj2 | hqj2
          · rw [← hqj2, hvj2]
            exact h1 p (j + 1) (by omega) (by omega) (by omega)
          · rw [hvk q (by omega) (by omega)]
            exact h3 p q (by omega) (by omega) hqi)
      exact ⟨RegionOp_trans hreg hrec.1, hrec.2⟩
    · rw [if_neg hc]
      refine ⟨RegionOp_refl A off (i + 1), ?_⟩
      have hstop : lt (lget A (off + (j + 2))) (lget A (off + (j + 1))) = false := by
        cases hcc : lt (lget A (off + j + 2)) (lget A (off + j + 1))
        · rw [show off + (j + 2) = off + j + 2 from by omega,
            show off + (j + 1) = off + j + 1 from by omega]
          exact hcc
        · exact absurd hcc hc
      intro p q hp hpq hq
      rcases Nat.lt_or_ge q (j + 2) with hqlt | hqge
      · exact h1 p q hp hpq hqlt
      · rcases Nat.lt_or_ge p (j + 2) with hplt | hpge
        · rcases Nat.eq_or_lt_of_le hqge with hqe | hqgt
          · rcases Nat.eq_or_lt_of_le (show p ≤ j + 1 from by omega) with hpe | hplt2
            · rw [← hqe, hpe]
              exact hstop
            · have hq1 : lt (lget A (off + (j + 1))) (lget A (off + p)) = false :=
                h1 p (j + 1) hp (by omega) (by omega)
              rw [← hqe]
              exact swo_neg_trans hswo hstop hq1
          · rcases Nat.eq_or_lt_of_le (show p ≤ j + 1 from by omega) with hpe | hplt2
            · rw [hpe]
              exact h3 (j + 1) q (by omega) (by omega) (by omega)
            · exact h3 p q (by omega) (by omega) (by omega)
        · exact h2 p q (by omega) hpq hq

theorem insLoop_spec [Inhabited T] (lt : T → T → Bool) (hswo : IsSWO lt)
    (off n : Nat) :
    ∀ (fuel i : Nat) (A : List T), n - i ≤ fuel → 1 ≤ i → off + n ≤ A.length →
      sortedIdx lt A off 0 i →
      RegionOp A (insLoop lt off n i A) off n ∧
      sortedIdx lt (insLoop lt off n i A) off 0 n := by
  intro fuel
  induction fuel with
  | zero =>
    intro i A hf h1 hb hs
    rw [insLoop, dif_neg (by omega)]
    refine ⟨RegionOp_refl A off n, ?_⟩
    intro p q hp hpq hq
    exact hs p q hp hpq (by omega)
  | succ fuel ih =>
    intro i A hf h1 hb hs
    rw [insLoop]
    by_cases hin : i < n
    · rw [dif_pos hin]
      have hspec := insInner_spec lt hswo off i (i - 1) A (by omega) (by omega)
        (by
          intro p q hp hpq hq
          exact hs p q hp hpq (by omega))
        (by
          intro p q hp hpq hq
          omega)
        (by
          intro p q hp hq2 hqi
          omega)
      obtain ⟨hreg1, hsort1⟩ := hspec
      have hrec := ih (i + 1) (insInner lt off A (i - 1)) (by omega) (by omega)
        (by rw [hreg1.1]; exact hb)
        (by
          intro p q hp hpq hq
          exact hsort1 p q hp hpq (by omega))
      refine ⟨RegionOp_trans ?_ hrec.1, hrec.2⟩
      exact RegionOp_mono off n hreg1 (Nat.le_refl off) (by omega) hb
    · rw [dif_neg hin]
      refine ⟨RegionOp_refl A off n, ?_⟩
      intro p q hp hpq hq
      exact hs p q hp hpq (by omega)

theorem insertion_sort_spec [Inhabited T] (lt : T → T → Bool) (hswo : IsSWO lt)
    (A : List T) (off n : Nat) (hb : off + n ≤ A.length) :
    RegionOp A (insertion_sort A off n lt) off n ∧
    sortedIdx lt (insertion_sort A off n lt) off 0 n := by
  unfold insertion_sort
  exact insLoop_spec lt hswo off n n 1 A (by omega) (Nat.le_refl 1) hb
    (by
      intro p q hp hpq hq
      omega)

theorem sort5_spec [Inhabited T] (lt : T → T → Bool) (hswo : IsSWO lt)
    (A : List T) (off n : Nat) (h5 : 5 ≤ n) (hb : off + n ≤ A.length) :
    RegionOp A (sort5 A off n lt) off n ∧
    sortedIdx lt (sort5 A off n lt) off 0 5 := by
  unfold sort5
  simp only
  have hd : n / 6 * 6 ≤ n := Nat.div_mul_le_self n 6
  have r1 : RegionOp A (lswap A off (off + n / 6 * 1)) off n := by
    have h := RegionOp_lswap A off n 0 (n / 6 * 1) (by omega) (by omega) hb
    exact h
  have l1 : (lswap A off (off + n / 6 * 1)).length = A.length := length_lswap A _ _
  have r2 : RegionOp (lswap A off (off + n / 6 * 1))
      (lswap (lswap A off (off + n / 6 * 1)) (off + 1) (off + n / 6 * 2)) off n :=
    RegionOp_lswap _ off n 1 (n / 6 * 2) (by omega) (by omega) (by rw [l1]; exact hb)
  have l2 : (lswap (lswap A off (off + n / 6 * 1)) (off + 1) (off + n / 6 * 2)).length
      = A.length := by rw [length_lswap, l1]
  have r3 : RegionOp (lswap (lswap A off (off + n / 6 * 1)) (off + 1) (off + n / 6 * 2))
      (lswap (lswap (lswap A off (off + n / 6 * 1)) (off + 1) (off + n / 6 * 2))
        (off + 2) (off + n / 6 * 3)) off n :=
    RegionOp_lswap _ off n 2 (n / 6 * 3) (by omega) (by omega) (by rw [l2]; exact hb)
  have l3 : (lswap (lswap (lswap A off (off + n / 6 * 1)) (off + 1) (off + n / 6 * 2))
      (off + 2) (off + n / 6 * 3)).length = A.length := by rw [length_lswap, l2]
  have r4 : RegionOp
      (lswap (lswap (lswap A off (off + n / 6 * 1)) (off + 1) (off + n / 6 * 2))
        (off + 2) (off + n / 6 * 3))
      (lswap (lswap (lswap (lswap A off (off + n / 6 * 1)) (off + 1) (off + n / 6 * 2))
        (off + 2) (off + n / 6 * 3)) (off + 3) (off + n / 6 * 4)) off n :=
    RegionOp_lswap _ off n 3 (n / 6 * 4) (by omega) (by omega) (by rw [l3]; exact hb)
  have l4 : (lswap (lswap (lswap (lswap A off (off + n / 6 * 1)) (off + 1)
      (off + n / 6 * 2)) (off + 2) (off + n / 6 * 3)) (off + 3)
      (off + n / 6 * 4)).length = A.length := by rw [length_lswap, l3]
  have r5 : RegionOp
      (lswap (lswap (lswap (lswap A off (off + n / 6 * 1)) (off + 1) (off + n / 6 * 2))
        (off + 2) (off + n / 6 * 3)) (off + 3) (off + n / 6 * 4))
      (lswap (lswap (lswap (lswap (lswap A off (off + n / 6 * 1)) (off + 1)
        (off + n / 6 * 2)) (off + 2) (off + n / 6 * 3)) (off + 3) (off + n / 6 * 4))
        (off + 4) (off + n / 6 * 5)) off n :=
    RegionOp_lswap _ off n 4 (n / 6 * 5) (by omega) (by omega) (by rw [l4]; exact hb)
  have l5 : (lswap (lswap (lswap (lswap (lswap A off (off + n / 6 * 1)) (off + 1)
      (off + n / 6 * 2)) (off + 2) (off + n / 6 * 3)) (off + 3) (off + n / 6 * 4))
      (off + 4) (off + n / 6 * 5)).length = A.length := by rw [length_lswap, l4]
  have hins := insertion_sort_spec lt hswo
    (lswap (lswap (lswap (lswap (lswap A off (off + n / 6 * 1)) (off + 1)
      (off + n / 6 * 2)) (off + 2) (off + n / 6 * 3)) (off + 3) (off + n / 6 * 4))
      (off + 4) (off + n / 6 * 5)) off 5 (by rw [l5]; omega)
  refine ⟨?_, hins.2⟩
  exact RegionOp_trans r1 (RegionOp_trans r2 (RegionOp_trans r3 (RegionOp_trans r4
    (RegionOp_trans r5 (RegionOp_mono off n hins.1 (Nat.le_refl off) (by omega)
      (by rw [l5]; exact hb))))))

theorem findL_immediate [Inhabited T] (lt : T → T → Bool) (A : List T) (off : Nat)
    (p1 : T) (fuel : Nat) (h : lt (lget A (off + 2)) p1 = false) (hf : 1 ≤ fuel) :
    findL lt A off p1 2 fuel = 2 := by
  cases fuel with
  | zero => omega
  | succ fuel =>
    simp only [findL]
    rw [if_neg (by simp [h])]

theorem findR_le [Inhabited T] (lt : T → T → Bool) (A : List T) (off : Nat) (p2 : T) :
    ∀ r, findR lt A off p2 r ≤ r := by
  intro r
  induction r with
  | zero => simp [findR]
  | succ r ih =>
    simp only [findR]
    split
    · omega
    · omega

theorem findR_skipped [Inhabited T] (lt : T → T → Bool) (A : List T) (off : Nat)
    (p2 : T) :
    ∀ r k, findR lt A off p2 r < k → k ≤ r → lt p2 (lget A (off + k)) = true := by
  intro r
  induction r with
  | zero =>
    intro k h1 h2
    omega
  | succ r ih =>
    intro k h1 h2
    by_cases hc : lt p2 (lget A (off + r + 1)) = true
    · rw [findR, if_pos hc] at h1
      rcases Nat.eq_or_lt_of_le h2 with he | hlt
      · rw [he]
        show lt p2 (lget A (off + r + 1)) = true
        exact hc
      · exact ih k h1 (by omega)
    · rw [findR, if_neg hc] at h1
      omega

theorem findR_stopper [Inhabited T] (lt : T → T → Bool) (A : List T) (off : Nat)
    (p2 : T) :
    ∀ r, findR lt A off p2 r = 0 ∨
      lt p2 (lget A (off + findR lt A off p2 r)) = false := by
  intro r
  induction r with
  | zero => exact Or.inl rfl
  | succ r ih =>
    by_cases hc : lt p2 (lget A (off + r + 1)) = true
    · rw [findR, if_pos hc]
      exact ih
    · rw [findR, if_neg hc]
      refine Or.inr ?_
      show lt p2 (lget A (off + r + 1)) = false
      cases hcc : lt p2 (lget A (off + r + 1))
      · rfl
      · exact absurd hcc hc

theorem findR_ge_stopper [Inhabited T] (lt : T → T → Bool) (A : List T) (off : Nat)
    (p2 : T) :
    ∀ r s, s ≤ r → lt p2 (lget A (off + s)) = false → s ≤ findR lt A off p2 r := by
  intro r
  induction r with
  | zero =>
    intro s hs _
    omega
  | succ r ih =>
    intro s hs hstop
    by_cases hc : lt p2 (lget A (off + r + 1)) = true
    · rw [findR, if_pos hc]
      rcases Nat.eq_or_lt_of_le hs with he | hlt
      · exfalso
        rw [he] at hstop
        have : lt p2 (lget A (off + r + 1)) = false := hstop
        rw [hc] at this
        exact absurd this (by simp)
      · exact ih s (by omega) hstop
    · rw [findR, if_neg hc]
      exact hs

theorem sloop_spec [Inhabited T] (lt : T → T → Bool) (p1 p2 : T) (off n : Nat) :
    ∀ (fuel : Nat) (A : List T) (L M R : Nat),
      R + 1 - M ≤ fuel →
      off + n ≤ A.length →
      2 ≤ L → L ≤ M → M ≤ R + 1 → R ≤ n - 1 → 1 ≤ R →
      lget A off = p1 → lget A (off + 1) = p2 →
      (∀ k, 2 ≤ k → k < L → lt (lget A (off + k)) p1 = true) →
      (∀ k, L ≤ k → k < M → lt (lget A (off + k)) p1 = false ∧
        lt p2 (lget A (off + k)) = false) →
      (∀ k, R < k → k < n → lt p2 (lget A (off + k)) = true) →
      (M ≤ R → lt p2 (lget A (off + R)) = false) →
      ∃ B L2 M2 R2, sloop lt p1 p2 A off L M R = (B, L2, M2, R2) ∧
        RegionOp A B off n ∧
        lget B off = p1 ∧ lget B (off + 1) = p2 ∧
        2 ≤ L2 ∧ L2 ≤ M2 ∧ M2 = R2 + 1 ∧ R2 ≤ n - 1 ∧ L ≤ L2 ∧
        (∀ k, 2 ≤ k → k < L2 → lt (lget B (off + k)) p1 = true) ∧
        (∀ k, L2 ≤ k → k < M2 → lt (lget B (off + k)) p1 = false ∧
          lt p2 (lget B (off + k)) = false) ∧
        (∀ k, M2 ≤ k → k < n → lt p2 (lget B (off + k)) = true) := by
  intro fuel
  induction fuel with
  | zero =>
    intro A L M R hf hlen h2L hLM hMR1 hRn hR1 hoff0 hoff1 inv1 inv2 inv3 inv4
    rw [sloop, dif_neg (by omega)]
    refine ⟨A, L, M, R, rfl, RegionOp_refl A off n, hoff0, hoff1, h2L, hLM,
      by omega, hRn, Nat.le_refl L, inv1, inv2, ?_⟩
    intro k hk1 hk2
    exact inv3 k (by omega) hk2
  | succ fuel ih =>
    intro A L M R hf hlen h2L hLM hMR1 hRn hR1 hoff0 hoff1 inv1 inv2 inv3 inv4
    rw [sloop]
    by_cases hMR : M ≤ R
    · rw [dif_pos hMR]
      have hn2 : 2 ≤ n := by omega
      have hbM : off + M < A.length := by omega
      have hbL : off + L < A.length := by omega
      have hbR : off + R < A.length := by omega
      by_cases hb1 : lt (lget A (off + M)) p1 = true
      · rw [if_pos hb1]
        have hvL : lget (lswap A (off + M) (off + L)) (off + L) = lget A (off + M) :=
          lget_lswap_snd A (off + M) (off + L) hbM hbL
        have hvM : lget (lswap A (off + M) (off + L)) (off + M) = lget A (off + L) :=
          lget_lswap_fst A (off + M) (off + L) hbM hbL
        have hvk : ∀ j, j ≠ M → j ≠ L →
            lget (lswap A (off + M) (off + L)) (off + j) = lget A (off + j) := by
          intro j hj1 hj2
          exact lget_lswap_other A (off + M) (off + L) (off + j) (by omega) (by omega)
        have hv0 : lget (lswap A (off + M) (off + L)) off = lget A off :=
          lget_lswap_other A (off + M) (off + L) off (by omega) (by omega)
        have hv1 : lget (lswap A (off + M) (off + L)) (off + 1) = lget A (off + 1) :=
          lget_lswap_other A (off + M) (off + L) (off + 1) (by omega) (by omega)
        have hrec := ih (lswap A (off + M) (off + L)) (L + 1) (M + 1) R
          (by omega) (by rw [length_lswap]; exact hlen)
          (by omega) (by omega) (by omega) hRn hR1
          (by rw [hv0]; exact hoff0) (by rw [hv1]; exact hoff1)
          (by
            intro k hk1 hk2
            rcases Nat.lt_or_ge k L with hkL | hkL
            · rw [hvk k (by omega) (by omega)]
              exact inv1 k hk1 hkL
            · have hkL2 : k = L := by omega
              rw [hkL2, hvL]
              exact hb1)
          (by
            intro k hk1 hk2
            rcases Nat.lt_or_ge k M with hkM | hkM
            · rw [hvk k (by omega) (by omega)]
              exact inv2 k (by omega) hkM
            · have hkM2 : k = M := by omega
              rw [hkM2, hvM]
              exact inv2 L (Nat.le_refl L) (by omega))
          (by
            intro k hk1 hk2
            rw [hvk k (by omega) (by omega)]
            exact inv3 k hk1 hk2)
          (by
            intro hprem
            rw [hvk R (by omega) (by omega)]
            exact inv4 hMR)
        obtain ⟨B, L2, M2, R2, heq, hreg, hc1, hc2, hc3, hc4, hc5, hc6, hc7,
          hc8, hc9, hc10⟩ := hrec
        refine ⟨B, L2, M2, R2, heq, ?_, hc1, hc2, hc3, hc4, hc5, hc6,
          by omega, hc8, hc9, hc10⟩
        exact RegionOp_trans (RegionOp_lswap A off n M L (by omega) (by omega) hlen)
          hreg
      · rw [if_neg hb1]
        by_cases hb2 : lt p2 (lget A (off + M)) = true
        · rw [if_pos hb2]
          have hMltR : M < R := by
            rcases Nat.eq_or_lt_of_le hMR with he | h
            · exfalso
              have h4 := inv4 hMR
              rw [← he] at h4
              rw [h4] at hb2
              exact absurd hb2 (by simp)
            · exact h
          have hvM1 : lget (lswap A (off + M) (off + R)) (off + M) = lget A (off + R) :=
            lget_lswap_fst A (off + M) (off + R) hbM hbR
          have hvR1 : lget (lswap A (off + M) (off + R)) (off + R) = lget A (off + M) :=
            lget_lswap_snd A (off + M) (off + R) hbM hbR
          have hvk1 : ∀ j, j ≠ M → j ≠ R →
              lget (lswap A (off + M) (off + R)) (off + j) = lget A (off + j) := by
            intro j hj1 hj2
            exact lget_lswap_other A (off + M) (off + R) (off + j) (by omega) (by omega)
          have hv01 : lget (lswap A (off + M) (off + R)) off = lget A off :=
            lget_lswap_other A (off + M) (off + R) off (by omega) (by omega)
          have hv11 : lget (lswap A (off + M) (off + R)) (off + 1) = lget A (off + 1) :=
            lget_lswap_other A (off + M) (off + R) (off + 1) (by omega) (by omega)
          have hreg1 : RegionOp A (lswap A (off + M) (off + R)) off n :=
            RegionOp_lswap A off n M R (by omega) (by omega) hlen
          have hstopM1 : lt p2 (lget (lswap A (off + M) (off + R)) (off + M)) = false := by
            rw [hvM1]
            exact inv4 hMR
          by_cases hb3 : lt (lget (lswap A (off + M) (off + R)) (off + M)) p1 = true
          · rw [if_pos hb3]
            have hlen1 : (lswap A (off + M) (off + R)).length = A.length :=
              length_lswap A _ _
            have hbL1 : off + L < (lswap A (off + M) (off + R)).length := by omega
            have hbM1 : off + M < (lswap A (off + M) (off + R)).length := by omega
            have hvL2 : lget (lswap (lswap A (off + M) (off + R)) (off + L) (off + M))
                (off + L) = lget (lswap A (off + M) (off + R)) (off + M) :=
              lget_lswap_fst _ (off + L) (off + M) hbL1 hbM1
            have hvM2 : lget (lswap (lswap A (off + M) (off + R)) (off + L) (off + M))
                (off + M) = lget (lswap A (off + M) (off + R)) (off + L) :=
              lget_lswap_snd _ (off + L) (off + M) hbL1 hbM1
            have hvk2 : ∀ j, j ≠ L → j ≠ M →
                lget (lswap (lswap A (off + M) (off + R)) (off + L) (off + M)) (off + j)
                = lget (lswap A (off + M) (off + R)) (off + j) := by
              intro j hj1 hj2
              exact lget_lswap_other _ (off + L) (off + M) (off + j) (by omega) (by omega)
            have hv02 : lget (lswap (lswap A (off + M) (off + R)) (off + L) (off + M)) off
                = lget (lswap A (off + M) (off + R)) off :=
              lget_lswap_other _ (off + L) (off + M) off (by omega) (by omega)
            have hv12 : lget (lswap (lswap A (off + M) (off + R)) (off + L) (off + M))
                (off + 1) = lget (lswap A (off + M) (off + R)) (off + 1) :=
              lget_lswap_other _ (off + L) (off + M) (off + 1) (by omega) (by omega)
            have hreg2 : RegionOp (lswap A (off + M) (off + R))
                (lswap (lswap A (off + M) (off + R)) (off + L) (off + M)) off n :=
              RegionOp_lswap _ off n L M (by omega) (by omega) (by omega)
            have hstopM2 : lt p2
                (lget (lswap (lswap A (off + M) (off + R)) (off + L) (off + M))
                  (off + M)) = false := by
              rw [hvM2]
              rcases Nat.eq_or_lt_of_le hLM with he | hLltM
              · rw [he]
                exact hstopM1
              · rw [hvk1 L (by omega) (by omega)]
                exact (inv2 L (Nat.le_refl L) hLltM).2
            have hR2ge : M ≤ findR lt
                (lswap (lswap A (off + M) (off + R)) (off + L) (off + M)) off p2
                (R - 1) :=
              findR_ge_stopper lt _ off p2 (R - 1) M (by omega) hstopM2
            have hR2le : findR lt
                (lswap (lswap A (off + M) (off + R)) (off + L) (off + M)) off p2
                (R - 1) ≤ R - 1 :=
              findR_le lt _ off p2 (R - 1)
            have hrec := ih (lswap (lswap A (off + M) (off + R)) (off + L) (off + M))
              (L + 1) (M + 1)
              (findR lt (lswap (lswap A (off + M) (off + R)) (off + L) (off + M))
                off p2 (R - 1))
              (by omega)
              (by rw [length_lswap, length_lswap]; exact hlen)
              (by omega) (by omega) (by omega) (by omega) (by omega)
              (by rw [hv02, hv01]; exact hoff0)
              (by rw [hv12, hv11]; exact hoff1)
              (by
                intro k hk1 hk2
                rcases Nat.lt_or_ge k L with hkL | hkL
                · rw [hvk2 k (by omega) (by omega), hvk1 k (by omega) (by omega)]
                  exact inv1 k hk1 hkL
                · have hkL2 : k = L := by omega
                  rw [hkL2, hvL2]
                  exact hb3)
              (by
                intro k hk1 hk2
                rcases Nat.lt_or_ge k M with hkM | hkM
                · rw [hvk2 k (by omega) (by omega), hvk1 k (by omega) (by omega)]
                  exact inv2 k (by omega) hkM
                · have hkM2 : k = M := by omega
                  have hLltM : L < M := by omega
                  rw [hkM2, hvM2, hvk1 L (by omega) (by omega)]
                  exact inv2 L (Nat.le_refl L) hLltM)
              (by
                intro k hk1 hk2
                rcases Nat.lt_or_ge k R with hkR | hkR
                · exact findR_skipped lt _ off p2 (R - 1) k hk1 (by omega)
                · rcases Nat.eq_or_lt_of_le hkR with hke | hkgt
                  · rw [← hke, hvk2 R (by omega) (by omega), hvR1]
                    exact hb2
                  · rw [hvk2 k (by omega) (by omega), hvk1 k (by omega) (by omega)]
                    exact inv3 k (by omega) hk2)
              (by
                intro hprem
                rcases findR_stopper lt
                  (lswap (lswap A (off + M) (off + R)) (off + L) (off + M)) off p2
                  (R - 1) with h0 | hst
                · omega
                · exact hst)
            obtain ⟨B, L2, M2, R2, heq, hreg, hc1, hc2, hc3, hc4, hc5, hc6, hc7,
              hc8, hc9, hc10⟩ := hrec
            refine ⟨B, L2, M2, R2, heq, ?_, hc1, hc2, hc3, hc4, hc5, hc6,
              by omega, hc8, hc9, hc10⟩
            exact RegionOp_trans hreg1 (RegionOp_trans hreg2 hreg)
          · rw [if_neg hb3]
            have hR2ge : M ≤ findR lt (lswap A (off + M) (off + R)) off p2 (R - 1) :=
              findR_ge_stopper lt _ off p2 (R - 1) M (by omega) hstopM1
            have hR2le : findR lt (lswap A (off + M) (off + R)) off p2 (R - 1) ≤ R - 1 :=
              findR_le lt _ off p2 (R - 1)
            have hrec := ih (lswap A (off + M) (off + R)) L (M + 1)
              (findR lt (lswap A (off + M) (off + R)) off p2 (R - 1))
              (by omega)
              (by rw [length_lswap]; exact hlen)
              h2L (by omega) (by omega) (by omega) (by omega)
              (by rw [hv01]; exact hoff0)
              (by rw [hv11]; exact hoff1)
              (by
                intro k hk1 hk2
                rw [hvk1 k (by omega) (by omega)]
                exact inv1 k hk1 hk2)
              (by
                intro k hk1 hk2
                rcases Nat.lt_or_ge k M with hkM | hkM
                · rw [hvk1 k (by omega) (by omega)]
                  exact inv2 k hk1 hkM
                · have hkM2 : k = M := by omega
                  rw [hkM2, hvM1]
                  constructor
                  · cases hcc : lt (lget A (off + R)) p1
                    · rfl
                    · exfalso
                      rw [← hvM1] at hcc
                      rw [hcc] at hb3
                      exact absurd rfl hb3
                  · rw [← hvM1]
                    exact hstopM1)
              (by
                intro k hk1 hk2
                rcases Nat.lt_or_ge k R with hkR | hkR
                · exact findR_skipped lt _ off p2 (R - 1) k hk1 (by omega)
                · rcases Nat.eq_or_lt_of_le hkR with hke | hkgt
                  · rw [← hke, hvR1]
                    exact hb2
                  · rw [hvk1 k (by omega) (by omega)]
                    exact inv3 k (by omega) hk2)
              (by
                intro hprem
                rcases findR_stopper lt (lswap A (off + M) (off + R)) off p2
                  (R - 1) with h0 | hst
                · omega
                · exact hst)
            obtain ⟨B, L2, M2, R2, heq, hreg, hc1, hc2, hc3, hc4, hc5, hc6, hc7,
              hc8, hc9, hc10⟩ := hrec
            refine ⟨B, L2, M2, R2, heq, ?_, hc1, hc2, hc3, hc4, hc5, hc6,
              hc7, hc8, hc9, hc10⟩
            exact RegionOp_trans hreg1 hreg
        · rw [if_neg hb2]
          have hrec := ih A L (M + 1) R (by omega) hlen h2L (by omega) (by omega)
            hRn hR1 hoff0 hoff1 inv1
            (by
              intro k hk1 hk2
              rcases Nat.lt_or_ge k M with hkM | hkM
              · exact inv2 k hk1 hkM
              · have hkM2 : k = M := by omega
                subst hkM2
                constructor
                · cases hcc : lt (lget A (off + k)) p1
                  · rfl
                  · exact absurd hcc hb1
                · cases hcc : lt p2 (lget A (off + k))
                  · rfl
                  · exact absurd hcc hb2)
            inv3
            (by
              intro hprem
              exact inv4 (by omega))
          obtain ⟨B, L2, M2, R2, heq, hreg, hc1, hc2, hc3, hc4, hc5, hc6, hc7,
            hc8, hc9, hc10⟩ := hrec
          exact ⟨B, L2, M2, R2, heq, hreg, hc1, hc2, hc3, hc4, hc5, hc6, hc7,
            hc8, hc9, hc10⟩
    · rw [dif_neg hMR]
      refine ⟨A, L, M, R, rfl, RegionOp_refl A off n, hoff0, hoff1, h2L, hLM,
        by omega, hRn, Nat.le_refl L, inv1, inv2, ?_⟩
      intro k hk1 hk2
      exact inv3 k (by omega) hk2

theorem sortedIdx_shift [Inhabited T] (lt : T → T → Bool) (B : List T)
    (off a b : Nat) (h : sortedIdx lt B (off + a) 0 (b - a)) :
    sortedIdx lt B off a b := by
  intro p q hp hpq hq
  have h2 := h (p - a) (q - a) (by omega) (by omega) (by omega)
  have e1 : off + a + (q - a) = off + q := by omega
  have e2 : off + a + (p - a) = off + p := by omega
  rw [e1, e2] at h2
  exact h2

theorem RegionOp_pred [Inhabited T] {B C : List T} {o m : Nat}
    (h : RegionOp B C o m) (hlen : o + m ≤ B.length) (P : T → Prop)
    (hP : ∀ k, k < m → P (lget B (o + k))) :
    ∀ k, k < m → P (lget C (o + k)) := by
  intro k hk
  have hlenC : o + m ≤ C.length := by rw [h.1]; exact hlen
  have hslC : (seg C o m).length = m := seg_length C o m hlenC
  have hslB : (seg B o m).length = m := seg_length B o m hlen
  have h1 : lget C (o + k) = lget (seg C o m) k := (seg_getElem C o m k hk hlenC).symm
  rw [h1]
  have hkC : k < (seg C o m).length := by omega
  have hmem : lget (seg C o m) k ∈ seg C o m := by
    rw [lget_eq_getElem _ _ hkC]
    exact List.getElem_mem hkC
  have hmem2 : lget (seg C o m) k ∈ seg B o m := (h.2.2.mem_iff).mp hmem
  rw [List.mem_iff_getElem] at hmem2
  obtain ⟨j, hj, hje⟩ := hmem2
  have he : lget (seg C o m) k = lget (seg B o m) j := by
    rw [lget_eq_getElem (seg B o m) j hj]
    exact hje.symm
  rw [he, seg_getElem B o m j (by omega) hlen]
  exact hP j (by omega)

theorem glue_sorted [Inhabited T] {lt : T → T → Bool} (hswo : IsSWO lt)
    {B : List T} {off n L M : Nat} {p1 p2 : T}
    (hLM : L + 2 ≤ M) (hMn : M ≤ n)
    (hpL : lget B (off + L) = p1)
    (hpiv : lt p2 p1 = false)
    (hlow : ∀ k, k < L → lt (lget B (off + k)) p1 = true)
    (hmid : ∀ k, L < k → k < M → lt (lget B (off + k)) p1 = false ∧
      lt p2 (lget B (off + k)) = false)
    (hhigh : ∀ k, M ≤ k → k < n → lt p2 (lget B (off + k)) = true)
    (hsL : sortedIdx lt B off 0 L)
    (hsM : sortedIdx lt B off (L + 1) M)
    (hsR : sortedIdx lt B off M n) :
    sortedIdx lt B off 0 n := by
  intro p q hp hpq hq
  rcases Nat.lt_or_ge q L with hqL | hqL
  · exact hsL p q hp hpq hqL
  · rcases Nat.eq_or_lt_of_le hqL with hqe | hqgt
    · have hbq : lget B (off + q) = p1 := by rw [← hqe]; exact hpL
      have hpv := hlow p (by omega)
      rw [hbq]
      exact swo_asymm hswo hpv
    · rcases Nat.lt_or_ge q M with hqM | hqM
      · have hq2 := hmid q hqgt hqM
        rcases Nat.lt_or_ge p L with hpL2 | hpL2
        · have hpv := hlow p hpL2
          cases hc : lt (lget B (off + q)) (lget B (off + p))
          · rfl
          · exfalso
            have h2 := hswo.trans _ _ _ hc hpv
            rw [hq2.1] at h2
            exact absurd h2 (by simp)
        · rcases Nat.eq_or_lt_of_le hpL2 with hpe | hpgt
          · have hbp : lget B (off + p) = p1 := by rw [← hpe]; exact hpL
            rw [hbp]
            exact hq2.1
          · exact hsM p q (by omega) hpq hqM
      · have hqv := hhigh q hqM hq
        rcases Nat.lt_or_ge p L with hpL2 | hpL2
        · have hpv := hlow p hpL2
          cases hc : lt (lget B (off + q)) (lget B (off + p))
          · rfl
          · exfalso
            have h1 := hswo.trans _ _ _ hqv hc
            have h2 := hswo.trans _ _ _ h1 hpv
            rw [hpiv] at h2
            exact absurd h2 (by simp)
        · rcases Nat.eq_or_lt_of_le hpL2 with hpe | hpgt
          · cases hc : lt (lget B (off + q)) (lget B (off + p))
            · rfl
            · exfalso
              have hbp : lget B (off + p) = p1 := by rw [← hpe]; exact hpL
              rw [hbp] at hc
              have h2 := hswo.trans _ _ _ hqv hc
              rw [hpiv] at h2
              exact absurd h2 (by simp)
          · rcases Nat.lt_or_ge p M with hpM | hpM
            · have hp2 := hmid p hpgt hpM
              cases hc : lt (lget B (off + q)) (lget B (off + p))
              · rfl
              · exfalso
                have h2 := hswo.trans _ _ _ hqv hc
                rw [hp2.2] at h2
                exact absurd h2 (by simp)
            · exact hsR p q hpM hpq hq

theorem mid_incomp_sorted [Inhabited T] {lt : T → T → Bool} (hswo : IsSWO lt)
    {B : List T} {off L M : Nat} {p1 p2 : T}
    (hpiveq : lt p1 p2 = false) (hpiv : lt p2 p1 = false)
    (hmid : ∀ k, L < k → k < M → lt (lget B (off + k)) p1 = false ∧
      lt p2 (lget B (off + k)) = false) :
    sortedIdx lt B off (L + 1) M := by
  intro p q hp hpq hq
  have hpm := hmid p (by omega) (by omega)
  have hqm := hmid q (by omega) hq
  have hp1q : lt p1 (lget B (off + q)) = false := swo_neg_trans hswo hpiveq hqm.2
  have hp1p : lt p1 (lget B (off + p)) = false := swo_neg_trans hswo hpiveq hpm.2
  exact (hswo.incomp_trans _ _ _ hqm.1 hp1q hp1p hpm.1).1

theorem seg_zero_length (X : List T) : seg X 0 X.length = X := by
  simp [seg]

theorem base_case_false_ge (isPtr : Bool) (szIter n : Nat)
    (h : base_case isPtr szIter n = false) : 16 ≤ n := by
  simp only [base_case] at h
  by_cases hl : (isPtr || decide (szIter > 8)) = true
  · rw [if_pos hl] at h
    simp only [decide_eq_false_iff_not] at h
    omega
  · rw [if_neg hl] at h
    simp only [decide_eq_false_iff_not] at h
    omega

theorem split3_spec [Inhabited T] (lt : T → T → Bool) (hswo : IsSWO lt)
    (A : List T) (off n : Nat) (h5 : 5 ≤ n) (hb : off + n ≤ A.length) :
    ∃ B L M p1 p2,
      split3 A off n lt = (B, L, M, ! lt p1 p2) ∧
      RegionOp A B off n ∧
      L + 2 ≤ M ∧ M ≤ n ∧
      lget B (off + L) = p1 ∧
      lt p2 p1 = false ∧
      (∀ k, k < L → lt (lget B (off + k)) p1 = true) ∧
      (∀ k, L < k → k < M → lt (lget B (off + k)) p1 = false ∧
        lt p2 (lget B (off + k)) = false) ∧
      (∀ k, M ≤ k → k < n → lt p2 (lget B (off + k)) = true) := by
  obtain ⟨hregS, hsortS⟩ := sort5_spec lt hswo A off n h5 hb
  set S := sort5 A off n lt with hS
  have hlenS : S.length = A.length := hregS.1
  set A2 := lswap S off (off + 1) with hA2
  have hlenA2 : A2.length = S.length := by rw [hA2]; exact length_lswap S _ _
  set A3 := lswap A2 (off + 1) (off + 3) with hA3
  have hlenA3 : A3.length = A.length := by
    rw [hA3, length_lswap, hlenA2, hlenS]
  have hbA3 : off + n ≤ A3.length := by omega
  set p1 := lget A3 off with hp1
  set p2 := lget A3 (off + 1) with hp2
  have hv0 : p1 = lget S (off + 1) := by
    rw [hp1, hA3, lget_lswap_other A2 (off + 1) (off + 3) off (by omega) (by omega),
      hA2, lget_lswap_fst S off (off + 1) (by omega) (by omega)]
  have hv1 : p2 = lget S (off + 3) := by
    rw [hp2, hA3, lget_lswap_fst A2 (off + 1) (off + 3) (by omega) (by omega),
      hA2, lget_lswap_other S off (off + 1) (off + 3) (by omega) (by omega)]
  have hv2 : lget A3 (off + 2) = lget S (off + 2) := by
    rw [hA3, lget_lswap_other A2 (off + 1) (off + 3) (off + 2) (by omega) (by omega),
      hA2, lget_lswap_other S off (off + 1) (off + 2) (by omega) (by omega)]
  have hpiv : lt p2 p1 = false := by
    rw [hv0, hv1]
    exact hsortS 1 3 (by omega) (by omega) (by omega)
  have hskip2 : lt (lget A3 (off + 2)) p1 = false := by
    rw [hv2, hv0]
    exact hsortS 1 2 (by omega) (by omega) (by omega)
  set L0 := findL lt A3 off p1 2 n with hL0
  have hL0v : L0 = 2 := by
    rw [hL0]
    exact findL_immediate lt A3 off p1 n hskip2 (by omega)
  set R0 := findR lt A3 off p2 (n - 1) with hR0
  have hR0ge : 1 ≤ R0 := by
    rw [hR0]
    apply findR_ge_stopper lt A3 off p2 (n - 1) 1 (by omega)
    rw [← hp2]
    exact hswo.irrefl p2
  have hR0le : R0 ≤ n - 1 := by rw [hR0]; exact findR_le lt A3 off p2 (n - 1)
  have hinv3 : ∀ k, R0 < k → k < n → lt p2 (lget A3 (off + k)) = true := by
    intro k hk1 hk2
    rw [hR0] at hk1
    exact findR_skipped lt A3 off p2 (n - 1) k hk1 (by omega)
  have hinv4 : L0 ≤ R0 → lt p2 (lget A3 (off + R0)) = false := by
    intro hpr
    rcases findR_stopper lt A3 off p2 (n - 1) with h0 | hst
    · rw [← hR0] at h0
      omega
    · rw [← hR0] at hst
      exact hst
  obtain ⟨C, Lf, Mf, Rf, hq, hregC, hC0, hC1, hLf2, hLfMf, hMfRf, hRfn, hL0Lf,
    j1, j2, j3⟩ :=
    sloop_spec lt p1 p2 off n n A3 L0 L0 R0 (by omega) hbA3
      (by omega) (Nat.le_refl L0) (by omega) hR0le hR0ge
      hp1.symm hp2.symm
      (by intro k hk1 hk2; exfalso; omega)
      (by intro k hk1 hk2; exfalso; omega)
      hinv3 hinv4
  have hlenC : C.length = A.length := by rw [hregC.1]; exact hlenA3
  have hbC : off + n ≤ C.length := by omega
  have hsplit : split3 A off n lt =
      (lswap (lswap (lswap C (off + 1) (off + (Lf - 2) + 1)) off (off + (Lf - 2)))
        (off + (Lf - 2) + 1) (off + Rf), Lf - 2, Mf, ! lt p1 p2) := by
    simp only [split3]
    rw [← hS, ← hA2, ← hA3, ← hp1, ← hp2, ← hL0, ← hR0, hq]
  have harr : off + (Lf - 2) + 1 = off + (Lf - 2 + 1) := Nat.add_assoc off (Lf - 2) 1
  rw [harr] at hsplit
  set L := Lf - 2 with hLdef
  set D1 := lswap C (off + 1) (off + (L + 1)) with hD1
  set D2 := lswap D1 off (off + L) with hD2
  set B := lswap D2 (off + (L + 1)) (off + Rf) with hB
  have hlenD1 : D1.length = C.length := by rw [hD1]; exact length_lswap C _ _
  have hlenD2 : D2.length = D1.length := by rw [hD2]; exact length_lswap D1 _ _
  have hlenB : B.length = D2.length := by rw [hB]; exact length_lswap D2 _ _
  have hL1Rf : L + 1 ≤ Rf := by omega
  have hregD1 : RegionOp C D1 off n := by
    rw [hD1]
    exact RegionOp_lswap C off n 1 (L + 1) (by omega) (by omega) hbC
  have hregD2 : RegionOp D1 D2 off n := by
    have h0 := RegionOp_lswap D1 off n 0 L (by omega) (by omega) (by omega)
    rw [Nat.add_zero] at h0
    rw [hD2]
    exact h0
  have hregB : RegionOp D2 B off n := by
    rw [hB]
    exact RegionOp_lswap D2 off n (L + 1) Rf (by omega) (by omega) (by omega)
  have hregA2 : RegionOp S A2 off n := by
    have h0 := RegionOp_lswap S off n 0 1 (by omega) (by omega) (by omega)
    rw [Nat.add_zero] at h0
    rw [hA2]
    exact h0
  have hregA3 : RegionOp A2 A3 off n := by
    rw [hA3]
    exact RegionOp_lswap A2 off n 1 3 (by omega) (by omega) (by omega)
  have hregAll : RegionOp A B off n :=
    RegionOp_trans hregS (RegionOp_trans hregA2 (RegionOp_trans hregA3
      (RegionOp_trans hregC (RegionOp_trans hregD1
        (RegionOp_trans hregD2 hregB)))))
  have hvD1a : lget D1 (off + 1) = lget C (off + (L + 1)) := by
    rw [hD1]
    exact lget_lswap_fst C (off + 1) (off + (L + 1)) (by omega) (by omega)
  have hvD1b : lget D1 (off + (L + 1)) = lget C (off + 1) := by
    rw [hD1]
    exact lget_lswap_snd C (off + 1) (off + (L + 1)) (by omega) (by omega)
  have hvD1o : ∀ k, k ≠ 1 → k ≠ L + 1 → lget D1 (off + k) = lget C (off + k) := by
    intro k h1 h2
    rw [hD1]
    exact lget_lswap_other C (off + 1) (off + (L + 1)) (off + k) (by omega) (by omega)
  have hvD1z : lget D1 off = lget C off := by
    rw [hD1]
    exact lget_lswap_other C (off + 1) (off + (L + 1)) off (by omega) (by omega)
  have hvD2a : lget D2 off = lget D1 (off + L) := by
    rw [hD2]
    exact lget_lswap_fst D1 off (off + L) (by omega) (by omega)
  have hvD2b : lget D2 (off + L) = lget D1 off := by
    rw [hD2]
    exact lget_lswap_snd D1 off (off + L) (by omega) (by omega)
  have hvD2o : ∀ k, k ≠ 0 → k ≠ L → lget D2 (off + k) = lget D1 (off + k) := by
    intro k h1 h2
    rw [hD2]
    exact lget_lswap_other D1 off (off + L) (off + k) (by omega) (by omega)
  have hvBa : lget B (off + (L + 1)) = lget D2 (off + Rf) := by
    rw [hB]
    exact lget_lswap_fst D2 (off + (L + 1)) (off + Rf) (by omega) (by omega)
  have hvBb : lget B (off + Rf) = lget D2 (off + (L + 1)) := by
    rw [hB]
    exact lget_lswap_snd D2 (off + (L + 1)) (off + Rf) (by omega) (by omega)
  have hvBo : ∀ k, k ≠ L + 1 → k ≠ Rf → lget B (off + k) = lget D2 (off + k) := by
    intro k h1 h2
    rw [hB]
    exact lget_lswap_other D2 (off + (L + 1)) (off + Rf) (off + k) (by omega) (by omega)
  have hBL : lget B (off + L) = p1 := by
    rw [hvBo L (by omega) (by omega), hvD2b, hvD1z, hC0]
  have hBRf : lget B (off + Rf) = p2 := by
    rw [hvBb, hvD2o (L + 1) (by omega) (by omega), hvD1b, hC1]
  have hBlow : ∀ k, k < L → lt (lget B (off + k)) p1 = true := by
    intro k hk
    rw [hvBo k (by omega) (by omega)]
    by_cases hk0 : k = 0
    · subst hk0
      rw [Nat.add_zero, hvD2a]
      by_cases hL1 : L = 1
      · rw [hL1, hvD1a]
        exact j1 (L + 1) (by omega) (by omega)
      · rw [hvD1o L hL1 (by omega)]
        exact j1 L (by omega) (by omega)
    · rw [hvD2o k hk0 (by omega)]
      by_cases hk1 : k = 1
      · subst hk1
        rw [hvD1a]
        exact j1 (L + 1) (by omega) (by omega)
      · rw [hvD1o k hk1 (by omega)]
        exact j1 k (by omega) (by omega)
  have hBmid : ∀ k, L < k → k < Mf → lt (lget B (off + k)) p1 = false ∧
      lt p2 (lget B (off + k)) = false := by
    intro k hk1 hk2
    rcases Nat.lt_or_ge k Rf with hkR | hkR
    · by_cases hkL1 : k = L + 1
      · subst hkL1
        rw [hvBa, hvD2o Rf (by omega) (by omega), hvD1o Rf (by omega) (by omega)]
        exact j2 Rf (by omega) (by omega)
      · rw [hvBo k hkL1 (by omega), hvD2o k (by omega) (by omega),
          hvD1o k (by omega) (by omega)]
        exact j2 k (by omega) (by omega)
    · have hke : k = Rf := by omega
      subst hke
      rw [hBRf]
      exact ⟨hpiv, hswo.irrefl p2⟩
  have hBhigh : ∀ k, Mf ≤ k → k < n → lt p2 (lget B (off + k)) = true := by
    intro k hk1 hk2
    rw [hvBo k (by omega) (by omega), hvD2o k (by omega) (by omega),
      hvD1o k (by omega) (by omega)]
    exact j3 k hk1 hk2
  exact ⟨B, L, Mf, p1, p2, hsplit, hregAll, by omega, by omega, hBL, hpiv,
    hBlow, hBmid, hBhigh⟩

theorem quicksort_serial_spec [Inhabited T] (lt : T → T → Bool) (hswo : IsSWO lt)
    (isPtr : Bool) (szIter : Nat) :
    ∀ (fuel : Nat) (A : List T) (off n : Nat), n < fuel → off + n ≤ A.length →
      ∃ B, quicksort_serial isPtr szIter lt fuel A off n = some B ∧
        RegionOp A B off n ∧ sortedIdx lt B off 0 n := by
  intro fuel
  induction fuel with
  | zero =>
    intro A off n hf hb
    exact absurd hf (by omega)
  | succ fuel ih =>
    intro A off n hf hb
    by_cases hbc : base_case isPtr szIter n = true
    · obtain ⟨hregI, hsortI⟩ := insertion_sort_spec lt hswo A off n hb
      refine ⟨insertion_sort A off n lt, ?_, hregI, hsortI⟩
      simp only [quicksort_serial]
      rw [if_pos hbc]
    · have hbcf : base_case isPtr szIter n = false := by
        cases h : base_case isPtr szIter n
        · rfl
        · exact absurd h hbc
      have h16 : 16 ≤ n := base_case_false_ge isPtr szIter n hbcf
      obtain ⟨B1, L, M, p1, p2, hsp, hreg1, hLM, hMn, hpL, hpiv, hlow, hmid, hhigh⟩ :=
        split3_spec lt hswo A off n (by omega) hb
      have hlen1 : B1.length = A.length := hreg1.1
      have hmidstep : ∃ B2, (if (! lt p1 p2) = true then some B1
            else quicksort_serial isPtr szIter lt fuel B1 (off + L + 1) (M - L - 1))
            = some B2 ∧
          RegionOp B1 B2 (off + L + 1) (M - L - 1) ∧
          sortedIdx lt B2 off (L + 1) M := by
        cases hf12 : lt p1 p2 with
        | false =>
          refine ⟨B1, ?_, RegionOp_refl B1 (off + L + 1) (M - L - 1), ?_⟩
          · exact if_pos rfl
          · exact mid_incomp_sorted hswo hf12 hpiv hmid
        | true =>
          obtain ⟨B2, he2, hreg2, hsort2⟩ :=
            ih B1 (off + L + 1) (M - L - 1) (by omega) (by omega)
          refine ⟨B2, ?_, hreg2, ?_⟩
          · rw [if_neg (by simp)]
            exact he2
          · have e1 : off + L + 1 = off + (L + 1) := Nat.add_assoc off L 1
            have e2 : M - L - 1 = M - (L + 1) := by omega
            rw [e1, e2] at hsort2
            exact sortedIdx_shift lt B2 off (L + 1) M hsort2
      obtain ⟨B2, he2, hreg2, hsortM2⟩ := hmidstep
      have hlen2 : B2.length = A.length := by rw [hreg2.1]; exact hlen1
      obtain ⟨B3, he3, hreg3, hsort3⟩ := ih B2 (off + M) (n - M) (by omega) (by omega)
      have hsortR3 : sortedIdx lt B3 off M n := sortedIdx_shift lt B3 off M n hsort3
      have hlen3 : B3.length = A.length := by rw [hreg3.1]; exact hlen2
      obtain ⟨B4, he4, hreg4, hsortL4⟩ := ih B3 off L (by omega) (by omega)
      have hlen4 : B4.length = A.length := by rw [hreg4.1]; exact hlen3
      have hlow3 : ∀ k, k < L → lt (lget B3 (off + k)) p1 = true := by
        intro k hk
        have e1 : lget B3 (off + k) = lget B2 (off + k) :=
          hreg3.2.1 (off + k) (Or.inl (by omega))
        have e2 : lget B2 (off + k) = lget B1 (off + k) :=
          hreg2.2.1 (off + k) (Or.inl (by omega))
        rw [e1, e2]
        exact hlow k hk
      have hlow4 : ∀ k, k < L → lt (lget B4 (off + k)) p1 = true :=
        RegionOp_pred hreg4 (by omega) (fun x => lt x p1 = true) hlow3
      have hpL4 : lget B4 (off + L) = p1 := by
        have e1 : lget B4 (off + L) = lget B3 (off + L) :=
          hreg4.2.1 (off + L) (Or.inr (by omega))
        have e2 : lget B3 (off + L) = lget B2 (off + L) :=
          hreg3.2.1 (off + L) (Or.inl (by omega))
        have e3 : lget B2 (off + L) = lget B1 (off + L) :=
          hreg2.2.1 (off + L) (Or.inl (by omega))
        rw [e1, e2, e3]
        exact hpL
      have hmid2 : ∀ k, L < k → k < M → lt (lget B2 (off + k)) p1 = false ∧
          lt p2 (lget B2 (off + k)) = false := by
        intro k hk1 hk2
        have hbase : ∀ j, j < M - L - 1 →
            (fun x => lt x p1 = false ∧ lt p2 x = false)
              (lget B1 (off + L + 1 + j)) := by
          intro j hj
          have e : off + L + 1 + j = off + (L + 1 + j) := by omega
          rw [e]
          exact hmid (L + 1 + j) (by omega) (by omega)
        have hP := RegionOp_pred hreg2 (by omega)
          (fun x => lt x p1 = false ∧ lt p2 x = false) hbase (k - L - 1) (by omega)
        have e : off + L + 1 + (k - L - 1) = off + k := by omega
        rw [e] at hP
        exact hP
      have hmid4 : ∀ k, L < k → k < M → lt (lget B4 (off + k)) p1 = false ∧
          lt p2 (lget B4 (off + k)) = false := by
        intro k hk1 hk2
        have e1 : lget B4 (off + k) = lget B3 (off + k) :=
          hreg4.2.1 (off + k) (Or.inr (by omega))
        have e2 : lget B3 (off + k) = lget B2 (off + k) :=
          hreg3.2.1 (off + k) (Or.inl (by omega))
        rw [e1, e2]
        exact hmid2 k hk1 hk2
      have hhigh2 : ∀ k, M ≤ k → k < n → lt p2 (lget B2 (off + k)) = true := by
        intro k hk1 hk2
        have e : lget B2 (off + k) = lget B1 (off + k) :=
          hreg2.2.1 (off + k) (Or.inr (by omega))
        rw [e]
        exact hhigh k hk1 hk2
      have hhigh3 : ∀ k, M ≤ k → k < n → lt p2 (lget B3 (off + k)) = true := by
        intro k hk1 hk2
        have hbase : ∀ j, j < n - M →
            (fun x => lt p2 x = true) (lget B2 (off + M + j)) := by
          intro j hj
          have e : off + M + j = off + (M + j) := by omega
          rw [e]
          exact hhigh2 (M + j) (by omega) (by omega)
        have hP := RegionOp_pred hreg3 (by omega) (fun x => lt p2 x = true)
          hbase (k - M) (by omega)
        have e : off + M + (k - M) = off + k := by omega
        rw [e] at hP
        exact hP
      have hhigh4 : ∀ k, M ≤ k → k < n → lt p2 (lget B4 (off + k)) = true := by
        intro k hk1 hk2
        have e : lget B4 (off + k) = lget B3 (off + k) :=
          hreg4.2.1 (off + k) (Or.inr (by omega))
        rw [e]
        exact hhigh3 k hk1 hk2
      have hsortM3 : sortedIdx lt B3 off (L + 1) M :=
        sortedIdx_of_frame lt B2 B3 off (L + 1) M
          (fun k hk1 hk2 => hreg3.2.1 (off + k) (Or.inl (by omega))) hsortM2
      have hsortM4 : sortedIdx lt B4 off (L + 1) M :=
        sortedIdx_of_frame lt B3 B4 off (L + 1) M
          (fun k hk1 hk2 => hreg4.2.1 (off + k) (Or.inr (by omega))) hsortM3
      have hsortR4 : sortedIdx lt B4 off M n :=
        sortedIdx_of_frame lt B3 B4 off M n
          (fun k hk1 hk2 => hreg4.2.1 (off + k) (Or.inr (by omega))) hsortR3
      have hsorted : sortedIdx lt B4 off 0 n :=
        glue_sorted hswo hLM hMn hpL4 hpiv hlow4 hmid4 hhigh4 hsortL4 hsortM4 hsortR4
      have hregAll : RegionOp A B4 off n :=
        RegionOp_trans hreg1 (RegionOp_trans
          (RegionOp_mono off n hreg2 (by omega) (by omega) (by omega))
          (RegionOp_trans (RegionOp_mono off n hreg3 (by omega) (by omega) (by omega))
            (RegionOp_mono off n hreg4 (by omega) (by omega) (by omega))))
      refine ⟨B4, ?_, hregAll, hsorted⟩
      simp only [quicksort_serial]
      rw [if_neg hbc]
      simp only [hsp]
      cases hlt : lt p1 p2 with
      | false =>
        rw [hlt, if_pos (by decide : (!false) = true)] at he2
        rw [if_pos (by decide : (!false) = true)]
        have hB12 : B1 = B2 := Option.some.inj he2
        simp only [Option.bind_eq_bind, Option.some_bind]
        rw [hB12, he3]
        simp only [Option.some_bind]
        exact he4
      | true =>
        rw [hlt, if_neg (by simp)] at he2
        rw [if_neg (by simp)]
        rw [he2]
        simp only [Option.bind_eq_bind, Option.some_bind]
        rw [he3]
        simp only [Option.some_bind]
        exact he4

theorem quicksort_spec [Inhabited T] (lt : T → T → Bool) (hswo : IsSWO lt)
    (isPtr : Bool) (szIter : Nat) :
    ∀ (fuel : Nat) (A : List T) (off n : Nat), n < fuel → off + n ≤ A.length →
      ∃ B, quicksort isPtr szIter lt fuel A off n = some B ∧
        RegionOp A B off n ∧ sortedIdx lt B off 0 n := by
  intro fuel
  induction fuel with
  | zero =>
    intro A off n hf hb
    exact absurd hf (by omega)
  | succ fuel ih =>
    intro A off n hf hb
    by_cases hsmall : n < 2 ^ 10
    · obtain ⟨B, he, hreg, hsort⟩ :=
        quicksort_serial_spec lt hswo isPtr szIter (fuel + 1) A off n hf hb
      refine ⟨B, ?_, hreg, hsort⟩
      simp only [quicksort]
      rw [if_pos hsmall]
      exact he
    · have h5 : 5 ≤ n := by omega
      obtain ⟨B1, L, M, p1, p2, hsp, hreg1, hLM, hMn, hpL, hpiv, hlow, hmid, hhigh⟩ :=
        split3_spec lt hswo A off n h5 hb
      have hlen1 : B1.length = A.length := hreg1.1
      obtain ⟨B2, he2, hreg2, hsort2⟩ := ih B1 off L (by omega) (by omega)
      have hlen2 : B2.length = A.length := by rw [hreg2.1]; exact hlen1
      have hmid2 : ∀ k, L < k → k < M → lt (lget B2 (off + k)) p1 = false ∧
          lt p2 (lget B2 (off + k)) = false := by
        intro k hk1 hk2
        have e : lget B2 (off + k) = lget B1 (off + k) :=
          hreg2.2.1 (off + k) (Or.inr (by omega))
        rw [e]
        exact hmid k hk1 hk2
      have hmidstep : ∃ B3, (if (! lt p1 p2) = true then some B2
            else quicksort isPtr szIter lt fuel B2 (off + L + 1) (M - L - 1))
            = some B3 ∧
          RegionOp B2 B3 (off + L + 1) (M - L - 1) ∧
          sortedIdx lt B3 off (L + 1) M := by
        cases hf12 : lt p1 p2 with
        | false =>
          refine ⟨B2, ?_, RegionOp_refl B2 (off + L + 1) (M - L - 1), ?_⟩
          · exact if_pos rfl
          · exact mid_incomp_sorted hswo hf12 hpiv hmid2
        | true =>
          obtain ⟨B3, he3, hreg3, hsort3⟩ :=
            ih B2 (off + L + 1) (M - L - 1) (by omega) (by omega)
          refine ⟨B3, ?_, hreg3, ?_⟩
          · rw [if_neg (by simp)]
            exact he3
          · have e1 : off + L + 1 = off + (L + 1) := Nat.add_assoc off L 1
            have e2 : M - L - 1 = M - (L + 1) := by omega
            rw [e1, e2] at hsort3
            exact sortedIdx_shift lt B3 off (L + 1) M hsort3
      obtain ⟨B3, he3, hreg3, hsortM3⟩ := hmidstep
      have hlen3 : B3.length = A.length := by rw [hreg3.1]; exact hlen2
      obtain ⟨B4, he4, hreg4, hsort4⟩ := ih B3 (off + M) (n - M) (by omega) (by omega)
      have hlen4 : B4.length = A.length := by rw [hreg4.1]; exact hlen3
      have hsortR4 : sortedIdx lt B4 off M n := sortedIdx_shift lt B4 off M n hsort4
      have hlow2 : ∀ k, k < L → lt (lget B2 (off + k)) p1 = true :=
        RegionOp_pred hreg2 (by omega) (fun x => lt x p1 = true) hlow
      have hlow4 : ∀ k, k < L → lt (lget B4 (off + k)) p1 = true := by
        intro k hk
        have e1 : lget B4 (off + k) = lget B3 (off + k) :=
          hreg4.2.1 (off + k) (Or.inl (by omega))
        have e2 : lget B3 (off + k) = lget B2 (off + k) :=
          hreg3.2.1 (off + k) (Or.inl (by omega))
        rw [e1, e2]
        exact hlow2 k hk
      have hpL4 : lget B4 (off + L) = p1 := by
        have e1 : lget B4 (off + L) = lget B3 (off + L) :=
          hreg4.2.1 (off + L) (Or.inl (by omega))
        have e2 : lget B3 (off + L) = lget B2 (off + L) :=
          hreg3.2.1 (off + L) (Or.inl (by omega))
        have e3 : lget B2 (off + L) = lget B1 (off + L) :=
          hreg2.2.1 (off + L) (Or.inr (by omega))
        rw [e1, e2, e3]
        exact hpL
      have hmid3 : ∀ k, L < k → k < M → lt (lget B3 (off + k)) p1 = false ∧
          lt p2 (lget B3 (off + k)) = false := by
        intro k hk1 hk2
        have hbase : ∀ j, j < M - L - 1 →
            (fun x => lt x p1 = false ∧ lt p2 x = false)
              (lget B2 (off + L + 1 + j)) := by
          intro j hj
          have e : off + L + 1 + j = off + (L + 1 + j) := by omega
          rw [e]
          exact hmid2 (L + 1 + j) (by omega) (by omega)
        have hP := RegionOp_pred hreg3 (by omega)
          (fun x => lt x p1 = false ∧ lt p2 x = false) hbase (k - L - 1) (by omega)
        have e : off + L + 1 + (k - L - 1) = off + k := by omega
        rw [e] at hP
        exact hP
      have hmid4 : ∀ k, L < k → k < M → lt (lget B4 (off + k)) p1 = false ∧
          lt p2 (lget B4 (off + k)) = false := by
        intro k hk1 hk2
        have e1 : lget B4 (off + k) = lget B3 (off + k) :=
          hreg4.2.1 (off + k) (Or.inl (by omega))
        rw [e1]
        exact hmid3 k hk1 hk2
      have hhigh3 : ∀ k, M ≤ k → k < n → lt p2 (lget B3 (off + k)) = true := by
        intro k hk1 hk2
        have e1 : lget B3 (off + k) = lget B2 (off + k) :=
          hreg3.2.1 (off + k) (Or.inr (by omega))
        have e2 : lget B2 (off + k) = lget B1 (off + k) :=
          hreg2.2.1 (off + k) (Or.inr (by omega))
        rw [e1, e2]
        exact hhigh k hk1 hk2
      have hhigh4 : ∀ k, M ≤ k → k < n → lt p2 (lget B4 (off + k)) = true := by
        intro k hk1 hk2
        have hbase : ∀ j, j < n - M →
            (fun x => lt p2 x = true) (lget B3 (off + M + j)) := by
          intro j hj
          have e : off + M + j = off + (M + j) := by omega
          rw [e]
          exact hhigh3 (M + j) (by omega) (by omega)
        have hP := RegionOp_pred hreg4 (by omega) (fun x => lt p2 x = true)
          hbase (k - M) (by omega)
        have e : off + M + (k - M) = off + k := by omega
        rw [e] at hP
        exact hP
      have hsortL4 : sortedIdx lt B4 off 0 L := by
        have hs3 : sortedIdx lt B3 off 0 L :=
          sortedIdx_of_frame lt B2 B3 off 0 L
            (fun k hk1 hk2 => hreg3.2.1 (off + k) (Or.inl (by omega))) hsort2
        exact sortedIdx_of_frame lt B3 B4 off 0 L
          (fun k hk1 hk2 => hreg4.2.1 (off + k) (Or.inl (by omega))) hs3
      have hsortM4 : sortedIdx lt B4 off (L + 1) M :=
        sortedIdx_of_frame lt B3 B4 off (L + 1) M
          (fun k hk1 hk2 => hreg4.2.1 (off + k) (Or.inl (by omega))) hsortM3
      have hsorted : sortedIdx lt B4 off 0 n :=
        glue_sorted hswo hLM hMn hpL4 hpiv hlow4 hmid4 hhigh4 hsortL4 hsortM4 hsortR4
      have hregAll : RegionOp A B4 off n :=
        RegionOp_trans hreg1 (RegionOp_trans
          (RegionOp_mono off n hreg2 (by omega) (by omega) (by omega))
          (RegionOp_trans (RegionOp_mono off n hreg3 (by omega) (by omega) (by omega))
            (RegionOp_mono off n hreg4 (by omega) (by omega) (by omega))))
      refine ⟨B4, ?_, hregAll, hsorted⟩
      simp only [quicksort]
      rw [if_neg hsmall]
      simp only [hsp]
      rw [he2]
      simp only [Option.bind_eq_bind, Option.some_bind]
      cases hlt : lt p1 p2 with
      | false =>
        rw [hlt, if_pos (by decide : (!false) = true)] at he3
        have hB23 : B2 = B3 := Option.some.inj he3
        rw [if_pos (by decide : (!false) = true)]
        rw [hB23]
        exact he4
      | true =>
        rw [hlt, if_neg (by simp)] at he3
        rw [if_neg (by simp)]
        rw [he3]
        simp only [Option.some_bind]
        exact he4

/-! ## Claim theorems -/

/-- C4: `pack(A, F)` returns exactly the subsequence of elements `A[i]`
with `F[i]` truthy, in input order (each output slot written exactly
once, hence the `some` wrapper on every entry), and its length is the
number of truthy flags. -/
theorem C4_pack_stable_subsequence [Inhabited T] (In : List T) (Fl : List Bool)
    (fl : Flags) (hlen : In.length = Fl.length) :
    pack In Fl fl = some ((packSel In Fl).map some) ∧
    packSel In Fl = ((In.zip Fl).filter (fun p => p.2)).map Prod.fst ∧
    (packSel In Fl).length = (Fl.filter (fun b => b)).length :=
  ⟨pack_spec In Fl fl hlen, rfl, packSel_length In Fl hlen⟩

/-- C4 witness: `A = [10, 20, 30]`, `F = [true, false, true]`. -/
theorem C4_pack_stable_subsequence_witness :
    ([10, 20, 30] : List Nat).length = [true, false, true].length ∧
    pack ([10, 20, 30] : List Nat) [true, false, true] no_flag
      = some [some 10, some 30] := by
  refine ⟨by decide, ?_⟩
  have h := (C4_pack_stable_subsequence ([10, 20, 30] : List Nat) [true, false, true]
    no_flag (by decide)).1
  exact h.trans (by decide)

/-- C2: for every monoid with associative `f` and two-sided identity,
`reduce(A, m)` (default flags, any sufficient fuel) equals the ordered
left fold `identity ⊕ A[0] ⊕ … ⊕ A[n−1]`; in particular on a length-0
input it returns `m.identity`. -/
theorem C2_reduce_matches_left_fold (m : Mon T) (hm : IsMonoid m) (A : List T)
    (fuel : Nat) (hfuel : A.length + 1 ≤ fuel) :
    reduce fuel A m no_flag = some (A.foldl m.f m.identity) ∧
    reduce fuel ([] : List T) m no_flag = some m.identity := by
  refine ⟨reduce_eq_foldl m hm fuel A no_flag hfuel, ?_⟩
  have h := reduce_eq_foldl m hm fuel [] no_flag
    (by simp only [List.length_nil]; omega)
  simpa using h

/-- C2 witness: addition on `Nat` at `A = [1, 2, 3]`. -/
theorem C2_reduce_matches_left_fold_witness :
    IsMonoid addm_nat ∧ reduce 4 [1, 2, 3] addm_nat no_flag = some 6 := by
  have hm : IsMonoid addm_nat :=
    ⟨fun a b c => Nat.add_assoc a b c, fun a => Nat.zero_add a, fun a => Nat.add_zero a⟩
  refine ⟨hm, ?_⟩
  have h := (C2_reduce_matches_left_fold addm_nat hm [1, 2, 3] 4 (by decide)).1
  exact h.trans (by decide)

/-- C3: for every lawful monoid, `scan(A, m, flags)` returns the pair of
the output sequence and the total, where without `fl_scan_inclusive`
entry `i` is `identity ⊕ A[0] ⊕ … ⊕ A[i−1]`, with `fl_scan_inclusive`
entry `i` is the fold through `A[i]`, and in both cases the total is the
fold of the whole sequence from the identity. -/
theorem C3_scan_prefix_sums [Inhabited T] (m : Mon T) (hm : IsMonoid m)
    (A : List T) (fl : Flags) :
    scan A m fl = some (
      (List.range A.length).map (fun i =>
        (A.take (i + if fl.scan_inclusive then 1 else 0)).foldl m.f m.identity),
      A.foldl m.f m.identity) := by
  unfold scan
  exact scan_spec m hm A fl

/-- C3 witness: addition on `Nat` at `A = [5, 7]`, default flags
(exclusive): the output is `[0, 5]` and the total `12`. -/
theorem C3_scan_prefix_sums_witness :
    IsMonoid addm_nat ∧ scan [5, 7] addm_nat no_flag = some ([0, 5], 12) := by
  have hm : IsMonoid addm_nat :=
    ⟨fun a b c => Nat.add_assoc a b c, fun a => Nat.zero_add a, fun a => Nat.add_zero a⟩
  refine ⟨hm, ?_⟩
  have h := C3_scan_prefix_sums addm_nat hm [5, 7] no_flag
  exact h.trans (by decide)

/-- C8: with a lawful (hence deterministic) monoid, running reduce and
scan with `fl_sequential` returns exactly the same result as running them
with default flags. -/
theorem C8_fl_sequential_equivalence [Inhabited T] (m : Mon T) (hm : IsMonoid m)
    (A : List T) (fuel : Nat) (hfuel : A.length + 1 ≤ fuel) :
    reduce fuel A m fl_sequential = reduce fuel A m no_flag ∧
    scan A m fl_sequential = scan A m no_flag := by
  constructor
  · rw [reduce_eq_foldl m hm fuel A fl_sequential hfuel,
      reduce_eq_foldl m hm fuel A no_flag hfuel]
  · unfold scan
    rw [scan_spec m hm A fl_sequential, scan_spec m hm A no_flag]
    exact rfl

/-- C8 witness: addition on `Nat` at `A = [3, 4, 5]`. -/
theorem C8_fl_sequential_equivalence_witness :
    IsMonoid addm_nat ∧
    reduce 4 [3, 4, 5] addm_nat fl_sequential = reduce 4 [3, 4, 5] addm_nat no_flag ∧
    scan [3, 4, 5] addm_nat fl_sequential = scan [3, 4, 5] addm_nat no_flag := by
  have hm : IsMonoid addm_nat :=
    ⟨fun a b c => Nat.add_assoc a b c, fun a => Nat.zero_add a, fun a => Nat.add_zero a⟩
  exact ⟨hm, C8_fl_sequential_equivalence addm_nat hm [3, 4, 5] 4 (by decide)⟩

/-- C9: `reduce_serial` requires a nonempty input (`none` exactly on the
empty list); every block `[s, e)` handed to it by the tilers of reduce
and scan_ is nonempty (`s < e`, of positive length), the block sums
sequence is nonempty, and consequently the whole of `reduce` and `scan_`
never hits the out-of-range branch: they return `some`. -/
theorem C9_reduce_serial_error_unreachable [Inhabited T] (m : Mon T) (A : List T)
    (fl : Flags) (fuel bs i : Nat) (hA : A ≠ []) (hfuel : A.length + 1 ≤ fuel)
    (hbs : 0 < bs) (hi : i < num_blocks A.length bs) :
    reduce_serial ([] : List T) m = none ∧
    (reduce_serial A m).isSome = true ∧
    i * bs < min (i * bs + bs) A.length ∧
    0 < (cut A (i * bs) (min (i * bs + bs) A.length)).length ∧
    0 < num_blocks A.length bs ∧
    (reduce fuel A m fl).isSome = true ∧
    (scan_ A m fl).isSome = true := by
  have hlt := block_start_lt A.length bs i hbs hi
  have hApos : 0 < A.length := List.length_pos.mpr hA
  refine ⟨rfl, ?_, ?_, ?_, ?_, reduce_isSome m fuel A fl hfuel, scan_isSome A m fl⟩
  · rw [reduce_serial_nonempty A m hA]
    rfl
  · set x := i * bs with hx
    omega
  · rw [cut_block_length A bs i hbs hi]
    set x := i * bs with hx
    omega
  · exact (num_blocks_pos_iff A.length bs).mpr hApos

/-- C9 witness: `A = [5]`, one block of size 1024. -/
theorem C9_reduce_serial_error_unreachable_witness :
    ([5] : List Nat) ≠ [] ∧ (0 : Nat) < 1024 ∧ 0 < num_blocks ([5] : List Nat).length 1024 ∧
    reduce_serial ([] : List Nat) addm_nat = none ∧
    (reduce 2 [5] addm_nat no_flag).isSome = true := by
  have h := C9_reduce_serial_error_unreachable addm_nat [5] no_flag 2 1024 0
    (by simp) (by decide) (by decide) (by decide)
  exact ⟨by simp, by decide, by decide, h.1, h.2.2.2.2.2.1⟩

/-- C7: `split_three(In, Out, F, fl)` raises (the thrown
`invalid_argument`) exactly when `In` and `Out` refer to the same storage
region (`slice_eq`), and when it raises, the `Out` buffer is unchanged:
the throw precedes every write. -/
theorem C7_split_three_alias_error [Inhabited T] (In Out : MSlice T) (Fl : List Nat)
    (fl : Flags) :
    ((∃ e, (split_three In Out Fl fl).1 = Except.error e) ↔ slice_eq In Out = true) ∧
    (slice_eq In Out = true → (split_three In Out Fl fl).2 = Out) := by
  unfold split_three
  by_cases h : slice_eq In Out = true
  · rw [if_pos h]
    exact ⟨⟨fun _ => h, fun _ => ⟨_, rfl⟩⟩, fun _ => rfl⟩
  · rw [if_neg h]
    obtain ⟨p0, hp0⟩ := Option.isSome_iff_exists.mp (scan_isSome
      ((List.range (num_blocks In.data.length _block_size)).map (fun i =>
        count01 (cut Fl (i * _block_size)
          (min (i * _block_size + _block_size) In.data.length))) |>.map (fun p => p.1))
      addm_nat no_flag)
    obtain ⟨p1, hp1⟩ := Option.isSome_iff_exists.mp (scan_isSome
      ((List.range (num_blocks In.data.length _block_size)).map (fun i =>
        count01 (cut Fl (i * _block_size)
          (min (i * _block_size + _block_size) In.data.length))) |>.map (fun p => p.2))
      addm_nat no_flag)
    simp only [scan_inplace]
    rw [hp0, hp1]
    constructor
    · constructor
      · rintro ⟨e, he⟩
        simp at he
      · intro hc
        exact absurd hc h
    · intro hc
      exact absurd hc h

/-- C5: the claim says `base_case(A, n)` tests `n < 16` when the element
type (`value_type`) is a pointer or larger than 8 bytes.  The code instead
tests `sizeof(x)` where `x` is the *iterator*.  For a plain pointer
iterator (8 bytes) over a 16-byte non-pointer element type at `n = 20`,
the code returns `n < 24 = true` while the claimed rule gives
`n < 16 = false`. -/
theorem C5_base_case_divergence :
    base_case false 8 20 = true ∧ base_case_claim false 16 20 = false := by
  decide

/-- C6 counterexample: for the constant delayed sequence `dsConstOne`
(with `first = 1 ≠ 0`) the bare subscript and the iterator subscript agree
at every index, so the claim's "for every delayed sequence with
`first ≠ 0` there is an index where the two access paths return different
values" is false. -/
theorem C6_counterexample :
    dsConstOne.first ≠ 0 ∧
    ¬ ∃ i, dsSubscript dsConstOne i ≠ iterSubscript (dsBegin dsConstOne) i := by
  refine ⟨by decide, ?_⟩
  rintro ⟨i, h⟩
  exact h rfl

/-- C6 (amended): the bare subscript `a[i]` returns `f(i)` while the
iterator view (both `begin()[i]` and dereference after advancing by `i`)
returns `f(first + i)`; and there exists a delayed sequence with
`first ≠ 0` together with an index where the two access paths return
different values (for all sequences they apply `f` at indices differing
by `first`). -/
theorem C6_delayed_subscript_conventions (s : DSeq T) (i : Nat) :
    dsSubscript s i = s.f i ∧
    iterSubscript (dsBegin s) i = s.f (s.first + i) ∧
    iterDeref (iterAdd (dsBegin s) i) = s.f (s.first + i) ∧
    ∃ s0 : DSeq Nat, ∃ j : Nat,
      s0.first ≠ 0 ∧ dsSubscript s0 j ≠ iterSubscript (dsBegin s0) j := by
  refine ⟨rfl, rfl, rfl, ⟨1, 3, fun k => k⟩, 0, by decide, by decide⟩

/-- C10: for an iterator strictly inside its range, the postfix increment
returns an iterator one past it but leaves the iterator unchanged, the
postfix decrement returns an iterator one before it and leaves it
unchanged, while the prefix forms do advance the iterator state. -/
theorem C10_postfix_pure_prefix_mutating (it : DSIter T)
    (h1 : it.index < it.parent.last) (h2 : it.parent.first < it.index) :
    (iterPostInc it).2 = it ∧ (iterPostInc it).1 = iterAdd it 1 ∧
    (iterPostDec it).2 = it ∧ (iterPostDec it).1.index = it.index - 1 ∧
    (iterPreInc it).index = it.index + 1 ∧ iterPreInc it ≠ it ∧
    (iterPreDec it).index = it.index - 1 ∧ iterPreDec it ≠ it := by
  refine ⟨rfl, rfl, rfl, rfl, rfl, ?_, rfl, ?_⟩
  · intro h
    have : (iterPreInc it).index = it.index := congrArg DSIter.index h
    simp [iterPreInc] at this
  · intro h
    have hix : (iterPreDec it).index = it.index := congrArg DSIter.index h
    have : it.index - 1 = it.index := hix
    omega

/-- C10 witness at the concrete iterator `dsIterTwo`. -/
theorem C10_postfix_pure_prefix_mutating_witness :
    dsIterTwo.index < dsIterTwo.parent.last ∧
    dsIterTwo.parent.first < dsIterTwo.index ∧
    (iterPostInc dsIterTwo).2 = dsIterTwo :=
  ⟨by decide, by decide,
    (C10_postfix_pure_prefix_mutating dsIterTwo (by decide) (by decide)).1⟩

/-- C1: for every array `A`, viewed as the window `[0, A.length)`, and every
strict weak order `lt`, `quicksort` terminates (any fuel above the length
suffices) and returns a permutation of the input that is sorted by `lt`;
`quicksort_serial` satisfies the same contract. -/
theorem C1_quicksort_sorts_and_permutes [Inhabited T]
    (lt : T → T → Bool) (hswo : IsSWO lt) (isPtr : Bool) (szIter : Nat)
    (A : List T) (fuel : Nat) (hfuel : A.length < fuel) :
    (∃ B, quicksort isPtr szIter lt fuel A 0 A.length = some B ∧
      List.Perm B A ∧ SortedBy lt B) ∧
    (∃ B, quicksort_serial isPtr szIter lt fuel A 0 A.length = some B ∧
      List.Perm B A ∧ SortedBy lt B) := by
  constructor
  · obtain ⟨B, he, hreg, hsort⟩ :=
      quicksort_spec lt hswo isPtr szIter fuel A 0 A.length hfuel (by omega)
    refine ⟨B, he, ?_, ?_⟩
    · have hperm := hreg.2.2
      have h1 : seg B 0 A.length = B := by rw [← hreg.1]; exact seg_zero_length B
      have h2 : seg A 0 A.length = A := seg_zero_length A
      rw [h1, h2] at hperm
      exact hperm
    · have hlenB : 0 + A.length ≤ B.length := by rw [hreg.1]; omega
      have hsb := (sortedIdx_iff_SortedBy lt B 0 A.length hlenB).mpr hsort
      have h1 : seg B 0 A.length = B := by rw [← hreg.1]; exact seg_zero_length B
      rw [h1] at hsb
      exact hsb
  · obtain ⟨B, he, hreg, hsort⟩ :=
      quicksort_serial_spec lt hswo isPtr szIter fuel A 0 A.length hfuel (by omega)
    refine ⟨B, he, ?_, ?_⟩
    · have hperm := hreg.2.2
      have h1 : seg B 0 A.length = B := by rw [← hreg.1]; exact seg_zero_length B
      have h2 : seg A 0 A.length = A := seg_zero_length A
      rw [h1, h2] at hperm
      exact hperm
    · have hlenB : 0 + A.length ≤ B.length := by rw [hreg.1]; omega
      have hsb := (sortedIdx_iff_SortedBy lt B 0 A.length hlenB).mpr hsort
      have h1 : seg B 0 A.length = B := by rw [← hreg.1]; exact seg_zero_length B
      rw [h1] at hsb
      exact hsb

/-- C1 witness: a concrete run of both sorts on `[3, 1, 2]` with `<` on `Nat`. -/
theorem C1_quicksort_sorts_and_permutes_witness :
    (∃ B, quicksort false 8 natLt 4 [3, 1, 2] 0 3 = some B ∧
      List.Perm B [3, 1, 2] ∧ SortedBy natLt B) ∧
    (∃ B, quicksort_serial false 8 natLt 4 [3, 1, 2] 0 3 = some B ∧
      List.Perm B [3, 1, 2] ∧ SortedBy natLt B) :=
  C1_quicksort_sorts_and_permutes natLt
    ⟨fun x => by simp [natLt],
     fun x y z h1 h2 => by
       simp only [natLt, decide_eq_true_eq] at h1 h2 ⊢
       omega,
     fun x y z h1 h2 h3 h4 => by
       simp only [natLt, decide_eq_false_iff_not] at h1 h2 h3 h4 ⊢
       omega⟩
    false 8 [3, 1, 2] 4 (by decide)

end Parlay
